import Mathlib

/-!
# Verification of the WBD connector download/confirm protocol

Shallow embedding of `wbd_connector.py`: a resumable batch downloader whose
durable state is a directory ("Ledger") of files named
`batches/batch_{NNNN}_{firstIndex}{_confirmed}.xml`.  Filenames are modelled as
`List Char`; the directory is modelled as a list of named artifacts; one
iteration of the `while True:` loop in `get_books` is modelled by `cycleStep`,
parameterised by the outcome of the two network calls of that iteration
(the `getdb` fetch and the `confirm` call).
-/

namespace WbdConnector

/-- Filenames and index attributes are Python `str` values: sequences of
characters compared by code point. -/
abbrev Str := List Char

/-- Python string comparison `a < b` (lexicographic on code points); this is
the order used by `list.sort()` on the globbed filenames. -/
def ltb : Str → Str → Bool
  | [], [] => false
  | [], _ :: _ => true
  | _ :: _, [] => false
  | a :: as, b :: bs => if a < b then true else if b < a then false else ltb as bs

/-- Decimal digits of a natural number, most significant first (the digits
`str(n)` / `"%d" % n` produces).  The first argument is recursion fuel;
`n + 1` units always suffice since the value shrinks by a factor of 10. -/
def decimalAux : Nat → Nat → Str
  | 0, _ => []
  | fuel + 1, n =>
    if n < 10 then [Nat.digitChar n]
    else decimalAux fuel (n / 10) ++ [Nat.digitChar (n % 10)]

/-- `str(n)` for a natural number. -/
def decimal (n : Nat) : Str := decimalAux (n + 1) n

/-- Python's `f"{n:04d}"`: the decimal digits of `n`, left-padded with `'0'`
to a minimum width of four characters. -/
def pad4 (n : Nat) : Str :=
  List.replicate (4 - (decimal n).length) '0' ++ decimal n

/-- Python `int(s)` as used on the digit block of a batch filename, restricted
to plain digit strings (the only shape `save_batch` ever writes); any other
string is treated as a parse failure (`ValueError`, caught by the caller). -/
def pyInt (s : Str) : Option Nat :=
  if s ≠ [] ∧ ∀ c ∈ s, c.isDigit then
    some (s.foldl (fun v c => 10 * v + (c.toNat - 48)) 0)
  else none

/-- Python `s.split(sep)` for a single-character separator. -/
def splitOnChar (c : Char) : Str → List Str
  | [] => [[]]
  | x :: xs =>
    let r := splitOnChar c xs
    if x = c then [] :: r
    else
      match r with
      | [] => [[x]]
      | h :: t => (x :: h) :: t

/-- `os.path.basename`: the component after the last path separator. -/
def basename (s : Str) : Str := (splitOnChar '/' s).getLastD []

/-- One rewrite pass of Python `s.replace(pat, rep)` with explicit fuel
(`s.length` units suffice for a non-empty pattern). -/
def replaceAllAux : Nat → Str → Str → Str → Str
  | 0, s, _, _ => s
  | fuel + 1, s, pat, rep =>
    match s with
    | [] => []
    | c :: rest =>
      if pat <+: (c :: rest) then
        rep ++ replaceAllAux fuel (List.drop pat.length (c :: rest)) pat rep
      else c :: replaceAllAux fuel rest pat rep

/-- Python `s.replace(pat, rep)`: replace every (leftmost, non-overlapping)
occurrence of `pat` in `s` by `rep`. -/
def replaceAll (s pat rep : Str) : Str := replaceAllAux s.length s pat rep

/-- Python string interpolation of an optional attribute value:
`f"{x}"` renders `None` as the four characters `None`. -/
def pyStr : Option Str → Str
  | none => "None".data
  | some s => s

/-- The parse of one saved artifact (or of one `getdb` response body):
either unreadable/malformed XML (`ET.parse`/`ET.fromstring` raises), or a
well-formed document carrying the list of `indeks` attributes of its `book`
elements (in document order, `none` when the attribute is absent) and the
root's optional `transactionId` attribute. -/
inductive FileContent where
  | corrupt : FileContent
  | xml : List (Option Str) → Option Str → FileContent
deriving DecidableEq

/-- One file of the `batches` directory: its path and its content. -/
structure Artifact where
  name : Str
  content : FileContent
deriving DecidableEq

/-- The `batches` directory (the files matched by `glob("batches/batch_*.xml")`),
in unspecified order; every operation that cares about order sorts by name. -/
abbrev Ledger := List Artifact

/-- The `indeks` attribute of the first `book` element of a parsed file:
`root.find(".//book")` followed by `.get("indeks")`, with the whole read
guarded by `try/except` (corrupt file ⇒ `None`). -/
def firstIndexOf : FileContent → Option Str
  | .corrupt => none
  | .xml books _ => match books with | [] => none | b :: _ => b

/-- `batch_files.sort(); batch_files[-1]`: the artifact with the
lexicographically greatest name (paths share the `batches/` prefix, so
path order equals basename order). -/
def lastByName (l : Ledger) : Option Artifact :=
  match l with
  | [] => none
  | a :: rest => some (rest.foldl (fun acc x => if ltb acc.name x.name then x else acc) a)

/-- `get_last_batch_info()`: `(None, None)` on an empty directory, otherwise
the last artifact by name together with the first `indeks` of its content. -/
def get_last_batch_info (l : Ledger) : Option Artifact × Option Str :=
  match lastByName l with
  | none => (none, none)
  | some a => (some a, firstIndexOf a.content)

/-- `int(basename(name).split('_')[1])`, with `IndexError`/`ValueError`
collapsed to `none` (the caller's `except` clause). -/
def parseBatchNum (nm : Str) : Option Nat :=
  match (splitOnChar '_' (basename nm)).get? 1 with
  | none => none
  | some part => pyInt part

/-- `get_next_batch_number()`: `1` on an empty directory, otherwise the number
parsed from the last filename (defaulting to `0` on a parse failure) plus one. -/
def get_next_batch_number (l : Ledger) : Nat :=
  match lastByName l with
  | none => 1
  | some a => (parseBatchNum a.name).getD 0 + 1

/-- The filename `save_batch` computes:
`os.path.join("batches", f"batch_{batch_num:04d}_{first_index}{suffix}.xml")`. -/
def batchFilename (n : Nat) (idx : Option Str) (confirmed : Bool) : Str :=
  "batches/batch_".data ++ pad4 n ++ "_".data ++ pyStr idx
    ++ (if confirmed then "_confirmed".data else []) ++ ".xml".data

/-- Writing a file: `open(filename, "wb")` truncates an existing file of the
same name, so the directory keeps at most one entry per name. -/
def insertFile (l : Ledger) (a : Artifact) : Ledger :=
  l.filter (fun b => b.name ≠ a.name) ++ [a]

/-- `save_batch(content, batch_num, first_index, confirmed)`: writes the raw
response bytes under the computed name and returns that name. -/
def save_batch (l : Ledger) (content : FileContent) (n : Nat) (idx : Option Str)
    (confirmed : Bool) : Ledger × Str :=
  let nm := batchFilename n idx confirmed
  (insertFile l ⟨nm, content⟩, nm)

/-- The name produced by `update_confirmation`: unchanged when it already
contains `_confirmed`, otherwise every `.xml` replaced by `_confirmed.xml`. -/
def confirmName (nm : Str) : Str :=
  if "_confirmed".data <:+: nm then nm
  else replaceAll nm ".xml".data "_confirmed.xml".data

/-- `os.rename(old, new)`: fails (`OSError`) when no file named `old` exists,
otherwise moves its content to `new` (replacing any existing `new`). -/
def renameFile (l : Ledger) (oldN newN : Str) : Option Ledger :=
  match l.find? (fun b => b.name = oldN) with
  | none => none
  | some a => some (insertFile (l.filter (fun b => b.name ≠ oldN)) ⟨newN, a.content⟩)

/-- `update_confirmation(filename)`: returns the (possibly renamed) filename
together with the directory after the rename; `none` models the uncaught
`OSError` when the file to rename does not exist. -/
def update_confirmation (l : Ledger) (nm : Str) : Option (Ledger × Str) :=
  if "_confirmed".data <:+: nm then some (l, nm)
  else (renameFile l nm (confirmName nm)).map (fun l' => (l', confirmName nm))

/-- How one loop iteration classified the fetched response. -/
inductive Classify where
  | halted : Classify
  | dup : Classify
  | new : Classify
deriving DecidableEq

/-- Result of one loop iteration: the directory afterwards, the classification
taken, the value of the in-memory `last_first_index` variable when the
iteration body ends, and the name of the artifact persisted (if any). -/
structure StepRes where
  ledger : Ledger
  cls : Classify
  lastVar : Option Str
  savedName : Option Str
deriving DecidableEq

/-- One iteration of the `while True:` loop of `get_books`.

`fetch` is the outcome of `get_with_retries` on `getdb` composed with
`ET.fromstring`: `none` when retries were exhausted, `some .corrupt` for a
parse error, `some (.xml books tx)` for a parsed document.  `confirmOk` is
whether the single `confirm` call of this iteration (if reached) returned
status 200.  In the unreachable `OSError` branches of `update_confirmation`
the process would die with the directory in its state at that moment; the
model returns that state with the iteration marked by its classification. -/
def cycleStep (l : Ledger) (fetch : Option FileContent) (confirmOk : Bool) : StepRes :=
  let batch_num := get_next_batch_number l
  let lastFI := (get_last_batch_info l).2
  match fetch with
  | none => ⟨l, .halted, lastFI, none⟩
  | some .corrupt => ⟨l, .halted, lastFI, none⟩
  | some (.xml books tx) =>
    match books with
    | [] => ⟨l, .halted, lastFI, none⟩
    | b :: _ =>
      let current := b
      if lastFI ≠ none ∧ current = lastFI then
        -- duplicate batch detected
        if confirmOk then
          match (get_last_batch_info l).1 with
          | some lf =>
            if "_confirmed".data <:+: lf.name then ⟨l, .dup, none, none⟩
            else
              match update_confirmation l lf.name with
              | some (l', _) => ⟨l', .dup, none, none⟩
              | none => ⟨l, .dup, none, none⟩
          | none => ⟨l, .dup, none, none⟩
        else ⟨l, .dup, lastFI, none⟩
      else
        let sv := save_batch l (.xml books tx) batch_num current false
        if confirmOk then
          match update_confirmation sv.1 sv.2 with
          | some (l2, _) => ⟨l2, .new, none, some sv.2⟩
          | none => ⟨sv.1, .new, none, some sv.2⟩
        else ⟨sv.1, .new, current, some sv.2⟩

/-- `records_downloaded = (batch_num - 1) * batch_size`, the estimate computed
at the top of each iteration (line 146). -/
def recordsDownloaded (l : Ledger) (batchSize : Nat) : Nat :=
  (get_next_batch_number l - 1) * batchSize

/-- An artifact the ledger regards as unconfirmed: its name lacks the
`_confirmed` marker. -/
def unconfirmedName (nm : Str) : Prop := ¬ ("_confirmed".data <:+: nm)

instance (nm : Str) : Decidable (unconfirmedName nm) := by
  unfold unconfirmedName; infer_instance

/-- The unconfirmed artifacts of a directory. -/
def unconfirmedFiles (l : Ledger) : Ledger :=
  l.filter (fun a => unconfirmedName a.name)

/-- The sequence number the Ledger operations attribute to an artifact:
the parse of its filename, defaulted to `0` exactly as in
`get_next_batch_number`. -/
def seqOf (a : Artifact) : Nat := (parseBatchNum a.name).getD 0

/-- Value of a digit string under the fold `int` performs (the fold used in
`pyInt`). -/
def digitsVal (s : Str) : Nat := s.foldl (fun v c => 10 * v + (c.toNat - 48)) 0

/-- Fixed-width decimal expansion, most significant digit first: the shape
`f"{n:04d}"` takes for `n` below `10^w`. -/
def padDigits : Nat → Nat → Str
  | 0, _ => []
  | w + 1, n => Nat.digitChar (n / 10 ^ w) :: padDigits w (n % 10 ^ w)

/-- A first-record index value the filename round-trips cleanly: rendered, it
contains no path separator (so `basename` keeps the whole name), no
`confirmed` substring and no `.xml` substring (so the `_confirmed` marker
test and the `.replace(".xml", ...)` rename touch only the parts
`save_batch` itself wrote). -/
def idxOk (i : Option Str) : Prop :=
  ¬ ("confirmed".data <:+: pyStr i) ∧ ¬ (".xml".data <:+: pyStr i) ∧ '/' ∉ pyStr i

instance (i : Option Str) : Decidable (idxOk i) := by
  unfold idxOk; infer_instance

/-- Abstract description of one well-formed artifact: the data its filename
was built from, plus its content. -/
structure BSpec where
  seq : Nat
  idx : Option Str
  conf : Bool
  content : FileContent
deriving DecidableEq

/-- The artifact a `BSpec` denotes. -/
def BSpec.art (s : BSpec) : Artifact :=
  ⟨batchFilename s.seq s.idx s.conf, s.content⟩

/-- The greatest sequence number of a described Ledger (`0` when empty). -/
def maxSeq (sps : List BSpec) : Nat :=
  sps.foldr (fun s acc => max s.seq acc) 0

/-- A well-formed Ledger description: every artifact is named by the
`save_batch` pattern with a sequence number in `[1, 9998]` (so that the
zero-padded name of the next allocated number still sorts last) and a
round-trippable index, and no two artifacts share a sequence number. -/
def WF (sps : List BSpec) : Prop :=
  (∀ s ∈ sps, 1 ≤ s.seq ∧ s.seq ≤ 9998 ∧ idxOk s.idx) ∧ (sps.map BSpec.seq).Nodup

instance (sps : List BSpec) : Decidable (WF sps) := by
  unfold WF; infer_instance

/-- The at-most-one-unconfirmed invariant of spec §4.2/§8: any two unconfirmed
artifacts coincide, and an unconfirmed artifact has the greatest sequence
number in the directory. -/
def LInv (l : Ledger) : Prop :=
  (∀ a ∈ l, ∀ b ∈ l, unconfirmedName a.name → unconfirmedName b.name → a = b) ∧
  (∀ a ∈ l, unconfirmedName a.name → ∀ b ∈ l, seqOf b ≤ seqOf a)

instance (l : Ledger) : Decidable (LInv l) := by
  unfold LInv; infer_instance

/-- The first-record index of a fetched response, when the response parses
and yields at least one record. -/
def fetchFirst : Option FileContent → Option (Option Str)
  | some (.xml (b :: _) _) => some b
  | _ => none

/-- The fetched first-record index (if any) is round-trippable. -/
def fetchedIdxOk (fetch : Option FileContent) : Prop :=
  match fetchFirst fetch with
  | some b => idxOk b
  | none => True

instance (fetch : Option FileContent) : Decidable (fetchedIdxOk fetch) := by
  unfold fetchedIdxOk; rcases fetchFirst fetch with _ | b
  · exact inferInstanceAs (Decidable True)
  · exact inferInstanceAs (Decidable (idxOk b))

/-! Concrete sample data used to exercise the model on the scenarios of the
specification (first-record indexes `A1`, `A2`, a transaction token, and a
handful of directories). -/

/-- The index string `A1` of the spec scenarios. -/
def idxA1 : Str := "A1".data

/-- The index string `A2` of the spec scenarios. -/
def idxA2 : Str := "A2".data

/-- A fetch response with two records, first index `A1`. -/
def respA1 : FileContent := .xml [some idxA1, some idxA2] (some "T1".data)

/-- A fetch response with one record of index `A1`. -/
def respA1single : FileContent := .xml [some idxA1] (some "T2".data)

/-- A fetch response with one record of index `A2`. -/
def respA2single : FileContent := .xml [some idxA2] (some "T3".data)

/-- A fetch response whose only record lacks an `indeks` attribute. -/
def respNoIdx : FileContent := .xml [none] (some "T4".data)

/-- A directory holding one unconfirmed artifact whose first record lacks an
`indeks` attribute. -/
def ledgerNoIdx : Ledger := [⟨batchFilename 1 none false, respNoIdx⟩]

/-- A directory whose last artifact is unreadable. -/
def ledgerCorrupt : Ledger :=
  [⟨batchFilename 5 (some idxA1) true, .xml [some idxA1] none⟩,
   ⟨batchFilename 6 (some idxA2) false, FileContent.corrupt⟩]

/-- A directory whose last artifact parses but has no `book` element. -/
def ledgerNoBooks : Ledger := [⟨batchFilename 3 (some idxA1) false, .xml [] none⟩]

/-- A directory holding one unconfirmed artifact with index `A1`. -/
def ledgerUnconfA1 : Ledger := [⟨batchFilename 2 (some idxA1) false, respA1single⟩]

/-! ## Character and digit facts -/

theorem digitChar_isDigit : ∀ k, k < 10 → (Nat.digitChar k).isDigit = true := by decide

theorem digitChar_toNat : ∀ k, k < 10 → (Nat.digitChar k).toNat - 48 = k := by decide

theorem digitChar_mono : ∀ b, b < 10 → ∀ a, a < b → Nat.digitChar a < Nat.digitChar b := by
  decide

/-! ## Order lemmas for Python string comparison -/

theorem ltb_cons (x y : Char) (xs ys : Str) :
    ltb (x :: xs) (y :: ys) = if x < y then true else if y < x then false else ltb xs ys := rfl

theorem ltb_irrefl (s : Str) : ltb s s = false := by
  induction s with
  | nil => rfl
  | cons c cs ih =>
    rw [ltb_cons, if_neg (lt_irrefl c), if_neg (lt_irrefl c)]
    exact ih

theorem ltb_asymm (a b : Str) (h : ltb a b = true) : ltb b a = false := by
  induction a generalizing b with
  | nil =>
    cases b with
    | nil => simp [ltb] at h
    | cons y ys => rfl
  | cons x xs ih =>
    cases b with
    | nil => simp [ltb] at h
    | cons y ys =>
      rw [ltb_cons] at h
      rw [ltb_cons]
      by_cases hxy : x < y
      · rw [if_neg (asymm hxy), if_pos hxy]
      · rw [if_neg hxy] at h
        by_cases hyx : y < x
        · rw [if_pos hyx] at h
          exact absurd h (by simp)
        · rw [if_neg hyx] at h
          rw [if_neg hyx, if_neg hxy]
          exact ih ys h

theorem ltb_false_trans (x y z : Str) (h1 : ltb x y = false) (h2 : ltb y z = false) :
    ltb x z = false := by
  induction x generalizing y z with
  | nil =>
    cases y with
    | nil =>
      cases z with
      | nil => rfl
      | cons c cs => simp [ltb] at h2
    | cons b bs => simp [ltb] at h1
  | cons a as ih =>
    cases z with
    | nil => rfl
    | cons c cs =>
      cases y with
      | nil => simp [ltb] at h2
      | cons b bs =>
        rw [ltb_cons] at h1 h2
        rw [ltb_cons]
        by_cases hab : a < b
        · rw [if_pos hab] at h1
          exact absurd h1 (by simp)
        · rw [if_neg hab] at h1
          by_cases hbc : b < c
          · rw [if_pos hbc] at h2
            exact absurd h2 (by simp)
          · rw [if_neg hbc] at h2
            have hba : b ≤ a := not_lt.mp hab
            have hcb : c ≤ b := not_lt.mp hbc
            have hca : c ≤ a := le_trans hcb hba
            rw [if_neg (not_lt.mpr hca)]
            by_cases hc_lt : c < a
            · rw [if_pos hc_lt]
            · rw [if_neg hc_lt]
              have hac : a = c := le_antisymm (not_lt.mp hc_lt) hca
              have hab' : a = b := le_antisymm (by rw [hac]; exact hcb) hba
              rw [if_neg (show ¬ b < a by rw [hab']; exact lt_irrefl b)] at h1
              rw [if_neg (show ¬ c < b by rw [← hab', hac]; exact lt_irrefl c)] at h2
              exact ih bs cs h1 h2

theorem ltb_append_left (p a b : Str) : ltb (p ++ a) (p ++ b) = ltb a b := by
  induction p with
  | nil => rfl
  | cons c cs ih =>
    simp only [List.cons_append]
    rw [ltb_cons, if_neg (lt_irrefl c), if_neg (lt_irrefl c)]
    exact ih

theorem ltb_append_of_ne (a b u v : Str) (hlen : a.length = b.length) (hne : a ≠ b) :
    ltb (a ++ u) (b ++ v) = ltb a b := by
  induction a generalizing b with
  | nil =>
    cases b with
    | nil => exact absurd rfl hne
    | cons y ys => simp at hlen
  | cons x xs ih =>
    cases b with
    | nil => simp at hlen
    | cons y ys =>
      simp only [List.cons_append]
      rw [ltb_cons, ltb_cons]
      by_cases hxy : x < y
      · rw [if_pos hxy, if_pos hxy]
      · rw [if_neg hxy, if_neg hxy]
        by_cases hyx : y < x
        · rw [if_pos hyx, if_pos hyx]
        · rw [if_neg hyx, if_neg hyx]
          have hxy' : x = y := le_antisymm (not_lt.mp hyx) (not_lt.mp hxy)
          subst hxy'
          exact ih ys (by simpa using hlen) (fun hc => hne (by rw [hc]))

/-! ## Decimal rendering lemmas -/

theorem decimalAux_succ (f n : Nat) :
    decimalAux (f + 1) n = if n < 10 then [Nat.digitChar n]
                           else decimalAux f (n / 10) ++ [Nat.digitChar (n % 10)] := rfl

theorem decimalAux_eq (f g n : Nat) (hf : n < f) (hg : n < g) :
    decimalAux f n = decimalAux g n := by
  induction f generalizing g n with
  | zero => omega
  | succ f ih =>
    cases g with
    | zero => omega
    | succ g =>
      rw [decimalAux_succ, decimalAux_succ]
      by_cases h : n < 10
      · simp [h]
      · simp only [h, if_false]
        have hdiv : n / 10 < n := Nat.div_lt_self (by omega) (by omega)
        rw [ih g (n / 10) (by omega) (by omega)]

theorem decimal_step (n : Nat) :
    decimal n = if n < 10 then [Nat.digitChar n]
                else decimal (n / 10) ++ [Nat.digitChar (n % 10)] := by
  show decimalAux (n + 1) n = _
  rw [decimalAux_succ]
  by_cases h : n < 10
  · rw [if_pos h, if_pos h]
  · rw [if_neg h, if_neg h]
    have hdiv : n / 10 < n := Nat.div_lt_self (by omega) (by omega)
    rw [decimalAux_eq n (n / 10 + 1) (n / 10) (by omega) (by omega)]
    rfl

theorem decimal_ne_nil (n : Nat) : decimal n ≠ [] := by
  rw [decimal_step]
  split <;> simp

theorem decimal_digits (n : Nat) : ∀ c ∈ decimal n, c.isDigit = true := by
  induction n using Nat.strong_induction_on with
  | _ n ih =>
    rw [decimal_step]
    split
    case isTrue h =>
      intro c hc
      rw [List.mem_singleton] at hc
      subst hc
      exact digitChar_isDigit n h
    case isFalse h =>
      intro c hc
      rw [List.mem_append, List.mem_singleton] at hc
      rcases hc with hc | hc
      · exact ih (n / 10) (Nat.div_lt_self (by omega) (by omega)) c hc
      · subst hc
        exact digitChar_isDigit (n % 10) (Nat.mod_lt n (by omega))

theorem digitsVal_append_singleton (s : Str) (c : Char) :
    digitsVal (s ++ [c]) = 10 * digitsVal s + (c.toNat - 48) := by
  simp [digitsVal, List.foldl_append]

theorem digitsVal_decimal (n : Nat) : digitsVal (decimal n) = n := by
  induction n using Nat.strong_induction_on with
  | _ n ih =>
    rw [decimal_step]
    split
    case isTrue h =>
      have := digitChar_toNat n h
      simp [digitsVal]
      omega
    case isFalse h =>
      rw [digitsVal_append_singleton, ih (n / 10) (Nat.div_lt_self (by omega) (by omega))]
      have := digitChar_toNat (n % 10) (Nat.mod_lt n (by omega))
      omega

theorem digitsVal_replicate_zero (k : Nat) :
    (List.replicate k '0').foldl (fun v c => 10 * v + (c.toNat - 48)) 0 = 0 := by
  induction k with
  | zero => rfl
  | succ k ih => simpa [List.replicate_succ, List.foldl_cons] using ih

theorem digitsVal_pad4 (n : Nat) : digitsVal (pad4 n) = n := by
  unfold pad4 digitsVal
  rw [List.foldl_append, digitsVal_replicate_zero]
  exact digitsVal_decimal n

theorem pad4_inj {m n : Nat} (h : pad4 m = pad4 n) : m = n := by
  rw [← digitsVal_pad4 m, ← digitsVal_pad4 n, h]

theorem pad4_digits (n : Nat) : ∀ c ∈ pad4 n, c.isDigit = true := by
  intro c hc
  unfold pad4 at hc
  rw [List.mem_append] at hc
  rcases hc with hc | hc
  · rw [List.eq_of_mem_replicate hc]
    rfl
  · exact decimal_digits n c hc

theorem pyInt_pad4 (n : Nat) : pyInt (pad4 n) = some n := by
  unfold pyInt
  rw [if_pos]
  · have := digitsVal_pad4 n
    unfold digitsVal at this
    rw [this]
  · constructor
    · unfold pad4
      intro hnil
      rcases List.append_eq_nil.mp hnil with ⟨-, h2⟩
      exact decimal_ne_nil n h2
    · exact pad4_digits n

theorem padDigits_length (w : Nat) : ∀ n, (padDigits w n).length = w := by
  induction w with
  | zero => intro n; rfl
  | succ w ih => intro n; simp [padDigits, ih]

theorem padDigits_lt (w : Nat) : ∀ m n, m < n → n < 10 ^ w →
    ltb (padDigits w m) (padDigits w n) = true := by
  induction w with
  | zero => intro m n hmn hn; omega
  | succ w ih =>
    intro m n hmn hn
    have hp : 0 < 10 ^ w := Nat.pos_pow_of_pos w (by omega)
    have hn10 : n / 10 ^ w < 10 := by
      rw [Nat.div_lt_iff_lt_mul hp]
      calc n < 10 ^ (w + 1) := hn
        _ = 10 * 10 ^ w := by ring
    unfold padDigits
    by_cases hq : m / 10 ^ w < n / 10 ^ w
    · rw [ltb_cons, if_pos (digitChar_mono _ hn10 _ hq)]
    · have hq' : m / 10 ^ w = n / 10 ^ w :=
        le_antisymm (Nat.div_le_div_right (le_of_lt hmn)) (not_lt.mp hq)
      rw [hq', ltb_cons, if_neg (lt_irrefl _), if_neg (lt_irrefl _)]
      apply ih
      · have e1 := Nat.div_add_mod m (10 ^ w)
        have e2 := Nat.div_add_mod n (10 ^ w)
        have hAC : 10 ^ w * (m / 10 ^ w) = 10 ^ w * (n / 10 ^ w) := by rw [hq']
        omega
      · exact Nat.mod_lt n hp

theorem padDigits_four (n : Nat) :
    padDigits 4 n = [Nat.digitChar (n / 1000), Nat.digitChar (n % 1000 / 100),
      Nat.digitChar (n % 1000 % 100 / 10), Nat.digitChar (n % 1000 % 100 % 10)] := by
  show [Nat.digitChar (n / 10 ^ 3), Nat.digitChar (n % 10 ^ 3 / 10 ^ 2),
    Nat.digitChar (n % 10 ^ 3 % 10 ^ 2 / 10 ^ 1),
    Nat.digitChar (n % 10 ^ 3 % 10 ^ 2 % 10 ^ 1 / 10 ^ 0)] = _
  norm_num

theorem pad4_eq_padDigits (n : Nat) (h : n ≤ 9999) : pad4 n = padDigits 4 n := by
  have dc0 : Nat.digitChar 0 = '0' := rfl
  rw [padDigits_four]
  rcases (by omega : n < 10 ∨ (10 ≤ n ∧ n < 100) ∨ (100 ≤ n ∧ n < 1000) ∨
      (1000 ≤ n ∧ n ≤ 9999)) with h0 | h1 | h2 | h3
  · have e : decimal n = [Nat.digitChar n] := by rw [decimal_step, if_pos h0]
    unfold pad4
    rw [e]
    have q1 : n / 1000 = 0 := by omega
    have q2 : n % 1000 / 100 = 0 := by omega
    have q3 : n % 1000 % 100 / 10 = 0 := by omega
    have q4 : n % 1000 % 100 % 10 = n := by omega
    rw [q1, q2, q3, q4, dc0]
    rfl
  · have ed : decimal (n / 10) = [Nat.digitChar (n / 10)] := by
      rw [decimal_step, if_pos (by omega)]
    have e : decimal n = [Nat.digitChar (n / 10), Nat.digitChar (n % 10)] := by
      rw [decimal_step, if_neg (by omega), ed]
      rfl
    unfold pad4
    rw [e]
    have q1 : n / 1000 = 0 := by omega
    have q2 : n % 1000 / 100 = 0 := by omega
    have q3 : n % 1000 % 100 / 10 = n / 10 := by omega
    have q4 : n % 1000 % 100 % 10 = n % 10 := by omega
    rw [q1, q2, q3, q4, dc0]
    rfl
  · have ed2 : decimal (n / 100) = [Nat.digitChar (n / 100)] := by
      rw [decimal_step, if_pos (by omega)]
    have ed : decimal (n / 10) = [Nat.digitChar (n / 100), Nat.digitChar (n / 10 % 10)] := by
      rw [decimal_step, if_neg (by omega), Nat.div_div_eq_div_mul, ed2]
      norm_num
    have e : decimal n = [Nat.digitChar (n / 100), Nat.digitChar (n / 10 % 10),
        Nat.digitChar (n % 10)] := by
      rw [decimal_step, if_neg (by omega), ed]
      rfl
    unfold pad4
    rw [e]
    have q1 : n / 1000 = 0 := by omega
    have q2 : n % 1000 / 100 = n / 100 := by omega
    have q3 : n % 1000 % 100 / 10 = n / 10 % 10 := by omega
    have q4 : n % 1000 % 100 % 10 = n % 10 := by omega
    rw [q1, q2, q3, q4, dc0]
    rfl
  · have ed3 : decimal (n / 1000) = [Nat.digitChar (n / 1000)] := by
      rw [decimal_step, if_pos (by omega)]
    have ed2 : decimal (n / 100) = [Nat.digitChar (n / 1000), Nat.digitChar (n / 100 % 10)] := by
      rw [decimal_step, if_neg (by omega), Nat.div_div_eq_div_mul, ed3]
      norm_num
    have ed : decimal (n / 10) = [Nat.digitChar (n / 1000), Nat.digitChar (n / 100 % 10),
        Nat.digitChar (n / 10 % 10)] := by
      rw [decimal_step, if_neg (by omega), Nat.div_div_eq_div_mul, ed2]
      norm_num
    have e : decimal n = [Nat.digitChar (n / 1000), Nat.digitChar (n / 100 % 10),
        Nat.digitChar (n / 10 % 10), Nat.digitChar (n % 10)] := by
      rw [decimal_step, if_neg (by omega), ed]
      rfl
    unfold pad4
    rw [e]
    have q2 : n % 1000 / 100 = n / 100 % 10 := by omega
    have q3 : n % 1000 % 100 / 10 = n / 10 % 10 := by omega
    have q4 : n % 1000 % 100 % 10 = n % 10 := by omega
    rw [q2, q3, q4]
    rfl

theorem pad4_length (n : Nat) (h : n ≤ 9999) : (pad4 n).length = 4 := by
  rw [pad4_eq_padDigits n h, padDigits_length]

theorem pad4_lt {m n : Nat} (hmn : m < n) (hn : n ≤ 9999) :
    ltb (pad4 m) (pad4 n) = true := by
  rw [pad4_eq_padDigits m (by omega), pad4_eq_padDigits n hn]
  exact padDigits_lt 4 m n hmn (by omega)

/-- Artifact names with distinct sequence numbers at most `9999` compare
exactly as their sequence numbers, whatever the index and confirmation
suffix. -/
theorem batchFilename_lt {m n : Nat} (hmn : m < n) (hn : n ≤ 9999)
    (i j : Option Str) (c d : Bool) :
    ltb (batchFilename m i c) (batchFilename n j d) = true := by
  unfold batchFilename
  rw [show ("batches/batch_".data ++ pad4 m ++ "_".data ++ pyStr i
      ++ (if c then "_confirmed".data else []) ++ ".xml".data)
      = "batches/batch_".data ++ (pad4 m ++ ("_".data ++ pyStr i
      ++ (if c then "_confirmed".data else []) ++ ".xml".data)) by simp]
  rw [show ("batches/batch_".data ++ pad4 n ++ "_".data ++ pyStr j
      ++ (if d then "_confirmed".data else []) ++ ".xml".data)
      = "batches/batch_".data ++ (pad4 n ++ ("_".data ++ pyStr j
      ++ (if d then "_confirmed".data else []) ++ ".xml".data)) by simp]
  rw [ltb_append_left]
  rw [ltb_append_of_ne _ _ _ _ (by rw [pad4_length m (by omega), pad4_length n hn])
    (fun hc => absurd (pad4_inj hc) (by omega))]
  exact pad4_lt hmn hn

/-! ## Splitting and filename-parsing lemmas -/

theorem splitOnChar_cons (c x : Char) (xs : Str) :
    splitOnChar c (x :: xs) =
      if x = c then [] :: splitOnChar c xs
      else
        match splitOnChar c xs with
        | [] => [[x]]
        | h :: t => (x :: h) :: t := rfl

theorem splitOnChar_not_mem (c : Char) (s : Str) (h : c ∉ s) : splitOnChar c s = [s] := by
  induction s with
  | nil => rfl
  | cons x xs ih =>
    have hxc : ¬ x = c := by
      rintro rfl
      exact h (List.mem_cons_self x xs)
    have htail : c ∉ xs := fun hm => h (List.mem_cons_of_mem x hm)
    rw [splitOnChar_cons, ih htail, if_neg hxc]

theorem splitOnChar_sep (c : Char) (a b : Str) (h : c ∉ a) :
    splitOnChar c (a ++ c :: b) = a :: splitOnChar c b := by
  induction a with
  | nil =>
    show splitOnChar c (c :: b) = _
    rw [splitOnChar_cons, if_pos rfl]
  | cons x xs ih =>
    have hxc : ¬ x = c := by
      rintro rfl
      exact h (List.mem_cons_self x xs)
    have htail : c ∉ xs := fun hm => h (List.mem_cons_of_mem x hm)
    show splitOnChar c (x :: (xs ++ c :: b)) = _
    rw [splitOnChar_cons, ih htail, if_neg hxc]

theorem not_mem_pad4_of_not_digit {c : Char} (h : ¬ c.isDigit = true) (n : Nat) :
    c ∉ pad4 n :=
  fun hm => absurd (pad4_digits n c hm) h

theorem basename_batchFilename (n : Nat) (i : Option Str) (cf : Bool) (h : '/' ∉ pyStr i) :
    basename (batchFilename n i cf) =
      "batch_".data ++ pad4 n ++ "_".data ++ pyStr i
        ++ (if cf then "_confirmed".data else []) ++ ".xml".data := by
  have hrest : '/' ∉ ("batch_".data ++ pad4 n ++ "_".data ++ pyStr i
      ++ (if cf then "_confirmed".data else []) ++ ".xml".data) := by
    intro hm
    simp only [List.mem_append] at hm
    rcases hm with ((((hm | hm) | hm) | hm) | hm) | hm
    · exact absurd hm (by decide)
    · exact not_mem_pad4_of_not_digit (by decide) n hm
    · exact absurd hm (by decide)
    · exact h hm
    · cases cf with
      | true => exact absurd hm (by decide)
      | false => simp at hm
    · exact absurd hm (by decide)
  unfold basename batchFilename
  rw [show ("batches/batch_".data ++ pad4 n ++ "_".data ++ pyStr i
      ++ (if cf then "_confirmed".data else []) ++ ".xml".data)
      = "batches".data ++ '/' :: ("batch_".data ++ pad4 n ++ "_".data ++ pyStr i
      ++ (if cf then "_confirmed".data else []) ++ ".xml".data) by simp]
  rw [splitOnChar_sep '/' _ _ (by decide), splitOnChar_not_mem '/' _ hrest]
  rfl

theorem parseBatchNum_batchFilename (n : Nat) (i : Option Str) (cf : Bool)
    (h : '/' ∉ pyStr i) : parseBatchNum (batchFilename n i cf) = some n := by
  unfold parseBatchNum
  rw [basename_batchFilename n i cf h]
  rw [show ("batch_".data ++ pad4 n ++ "_".data ++ pyStr i
      ++ (if cf then "_confirmed".data else []) ++ ".xml".data)
      = "batch".data ++ '_' :: (pad4 n ++ '_' :: (pyStr i
      ++ (if cf then "_confirmed".data else []) ++ ".xml".data)) by simp]
  rw [splitOnChar_sep '_' _ _ (by decide),
    splitOnChar_sep '_' _ _ (not_mem_pad4_of_not_digit (by decide) n)]
  show pyInt (pad4 n) = some n
  exact pyInt_pad4 n

/-! ## Substring (infix) lemmas -/

theorem infix_cons_intro {q l : Str} (c : Char) (h : q <:+: l) : q <:+: c :: l := by
  obtain ⟨s, t, heq⟩ := h
  exact ⟨c :: s, t, by rw [← heq]; rfl⟩

theorem infix_cons_elim {q l : Str} {c : Char} (h : q <:+: c :: l) :
    q <+: c :: l ∨ q <:+: l := by
  obtain ⟨s, t, heq⟩ := h
  cases s with
  | nil =>
    left
    exact ⟨t, by simpa using heq⟩
  | cons a as =>
    right
    rw [List.cons_append, List.cons_append] at heq
    exact ⟨as, t, by injection heq⟩

theorem infix_split {q x y : Str} {c : Char} (hq : q ≠ []) (hc : c ∉ q)
    (h : q <:+: x ++ c :: y) : q <:+: x ∨ q <:+: y := by
  obtain ⟨s, t, heq⟩ := h
  rw [List.append_assoc] at heq
  rcases List.append_eq_append_iff.mp heq with ⟨e, hx, hqt⟩ | ⟨e, hs, hcy⟩
  · rcases List.append_eq_append_iff.mp hqt with ⟨f, he, ht⟩ | ⟨f, hqe, hcyf⟩
    · left
      exact ⟨s, f, by rw [hx, he, List.append_assoc]⟩
    · cases f with
      | nil =>
        left
        rw [List.append_nil] at hqe
        exact ⟨s, [], by rw [hx, ← hqe, List.append_nil]⟩
      | cons f0 fs =>
        exfalso
        rw [List.cons_append] at hcyf
        have hf0 : f0 = c := (List.cons.injEq _ _ _ _ ▸ hcyf).1.symm
        apply hc
        rw [hqe, hf0]
        exact List.mem_append_right e (List.mem_cons_self c fs)
  · cases e with
    | nil =>
      exfalso
      rw [List.nil_append] at hcy
      cases q with
      | nil => exact hq rfl
      | cons q0 qs =>
        rw [List.cons_append] at hcy
        have : q0 = c := (List.cons.injEq _ _ _ _ ▸ hcy).1.symm
        exact hc (this ▸ List.mem_cons_self q0 qs)
    | cons e0 es =>
      right
      rw [List.cons_append] at hcy
      have hy : y = es ++ q ++ t := by
        have := (List.cons.injEq _ _ _ _ ▸ hcy).2
        rw [this, List.append_assoc]
      exact ⟨es, t, by rw [hy, List.append_assoc]⟩

/-! ## Replacement (`str.replace`) lemmas -/

theorem replaceAllAux_succ (fuel : Nat) (c : Char) (s pat rep : Str) :
    replaceAllAux (fuel + 1) (c :: s) pat rep =
      if pat <+: (c :: s) then
        rep ++ replaceAllAux fuel (List.drop pat.length (c :: s)) pat rep
      else c :: replaceAllAux fuel s pat rep := rfl

theorem replaceAllAux_fuel (pat : Str) (hp : pat ≠ []) (rep : Str) :
    ∀ f g s, s.length ≤ f → s.length ≤ g →
      replaceAllAux f s pat rep = replaceAllAux g s pat rep := by
  intro f
  induction f with
  | zero =>
    intro g s hf hg
    have hs : s = [] := List.length_eq_zero.mp (Nat.le_antisymm hf (Nat.zero_le _))
    subst hs
    cases g <;> rfl
  | succ f ih =>
    intro g s hf hg
    cases s with
    | nil => cases g <;> rfl
    | cons c cs =>
      cases g with
      | zero => simp at hg
      | succ g =>
        rw [replaceAllAux_succ, replaceAllAux_succ]
        have hp1 : 1 ≤ pat.length := List.length_pos.mpr hp
        simp only [List.length_cons] at hf hg
        by_cases hpre : pat <+: (c :: cs)
        · rw [if_pos hpre, if_pos hpre]
          congr 1
          apply ih
          · rw [List.length_drop]
            simp only [List.length_cons]
            omega
          · rw [List.length_drop]
            simp only [List.length_cons]
            omega
        · rw [if_neg hpre, if_neg hpre]
          congr 1
          exact ih g cs (by omega) (by omega)

theorem replaceAll_cons (pat : Str) (hp : pat ≠ []) (rep : Str) (c : Char) (s : Str) :
    replaceAll (c :: s) pat rep =
      if pat <+: (c :: s) then
        rep ++ replaceAll (List.drop pat.length (c :: s)) pat rep
      else c :: replaceAll s pat rep := by
  show replaceAllAux (s.length + 1) (c :: s) pat rep = _
  rw [replaceAllAux_succ]
  have hp1 : 1 ≤ pat.length := List.length_pos.mpr hp
  by_cases hpre : pat <+: (c :: s)
  · rw [if_pos hpre, if_pos hpre]
    congr 1
    apply replaceAllAux_fuel pat hp
    · rw [List.length_drop]
      simp only [List.length_cons]
      omega
    · exact le_refl _
  · rw [if_neg hpre, if_neg hpre]
    rfl

theorem replaceAll_no_occurrence (pat : Str) (hp : pat ≠ []) (rep : Str) :
    ∀ s, ¬ (pat <:+: s) → replaceAll s pat rep = s := by
  intro s
  induction s with
  | nil => intro _; rfl
  | cons c cs ih =>
    intro h
    rw [replaceAll_cons pat hp rep]
    rw [if_neg (fun hpre => h (by
      obtain ⟨t, ht⟩ := hpre
      exact ⟨[], t, by simpa using ht⟩))]
    rw [ih (fun hinf => h (infix_cons_intro c hinf))]

theorem confirmed_infix_replace (s : Str) (h : ".xml".data <:+: s) :
    "_confirmed".data <:+: replaceAll s ".xml".data "_confirmed.xml".data := by
  induction s with
  | nil =>
    exfalso
    obtain ⟨a, b, heq⟩ := h
    simp at heq
  | cons c cs ih =>
    rw [replaceAll_cons _ (by decide) _]
    by_cases hpre : ".xml".data <+: (c :: cs)
    · rw [if_pos hpre]
      exact ⟨[], ".xml".data ++ replaceAll (List.drop 4 (c :: cs)) ".xml".data
        "_confirmed.xml".data, by simp⟩
    · rw [if_neg hpre]
      rcases infix_cons_elim h with h' | h'
      · exact absurd h' hpre
      · exact infix_cons_intro c (ih h')

theorem xml_prefix_shift {c : Char} {cs : Str}
    (hpre : ".xml".data <+: c :: (cs ++ ".xml".data)) : ".xml".data <:+: c :: cs := by
  by_cases hlen : 4 ≤ (c :: cs).length
  · have hx : ".xml".data <+: (c :: cs) ++ ".xml".data := by simpa using hpre
    have hpre2 : ".xml".data <+: c :: cs :=
      List.prefix_of_prefix_length_le hx (List.prefix_append _ _) (by simpa using hlen)
    obtain ⟨t, ht⟩ := hpre2
    exact ⟨[], t, by simpa using ht⟩
  · exfalso
    obtain ⟨t, ht⟩ := hpre
    match cs, ht with
    | [], ht => simp only [List.nil_append, List.cons_append, List.nil_append,
        List.cons.injEq] at ht; exact absurd ht.2.1 (by decide)
    | [a], ht => simp only [List.cons_append, List.nil_append,
        List.cons.injEq] at ht; exact absurd ht.2.2.1 (by decide)
    | [a, b], ht => simp only [List.cons_append, List.nil_append,
        List.cons.injEq] at ht; exact absurd ht.2.2.2.1 (by decide)
    | a :: b :: d :: es, ht => simp at hlen

theorem replaceAll_append_xml (rep : Str) :
    ∀ s, ¬ (".xml".data <:+: s) →
      replaceAll (s ++ ".xml".data) ".xml".data rep = s ++ rep := by
  intro s
  induction s with
  | nil =>
    intro _
    simp only [List.nil_append]
    rw [replaceAll_cons _ (by decide) _, if_pos (List.prefix_refl _)]
    simp [replaceAll, replaceAllAux]
  | cons c cs ih =>
    intro h
    simp only [List.cons_append]
    rw [replaceAll_cons _ (by decide) _]
    rw [if_neg (fun hpre => h (xml_prefix_shift hpre))]
    rw [ih (fun hinf => h (infix_cons_intro c hinf))]

/-! ## Containment facts about generated filenames -/

theorem not_confirmed_infix_pad4 (n : Nat) : ¬ ("confirmed".data <:+: pad4 n) := by
  intro h
  have hc : 'c' ∈ pad4 n := h.sublist.subset (by decide)
  exact absurd (pad4_digits n 'c' hc) (by decide)

theorem not_xml_infix_pad4 (n : Nat) : ¬ (".xml".data <:+: pad4 n) := by
  intro h
  have hc : '.' ∈ pad4 n := h.sublist.subset (by decide)
  exact absurd (pad4_digits n '.' hc) (by decide)

theorem name_false_shape (n : Nat) (i : Option Str) :
    batchFilename n i false =
      ("batches/batch_".data ++ pad4 n ++ "_".data ++ pyStr i) ++ ".xml".data := by
  simp [batchFilename]

theorem name_true_shape (n : Nat) (i : Option Str) :
    batchFilename n i true =
      ("batches/batch_".data ++ pad4 n ++ "_".data ++ pyStr i) ++ "_confirmed.xml".data := by
  unfold batchFilename
  rw [if_pos rfl]
  rw [show "_confirmed.xml".data = "_confirmed".data ++ ".xml".data from rfl]
  simp [List.append_assoc]

theorem prefix_part_split (n : Nat) (i : Option Str) :
    "batches/batch_".data ++ pad4 n ++ "_".data ++ pyStr i
      = "batches/batch".data ++ '_' :: (pad4 n ++ '_' :: pyStr i) := by
  rw [show "batches/batch_".data = "batches/batch".data ++ ['_'] from rfl,
    show "_".data = ['_'] from rfl]
  simp [List.append_assoc]

theorem full_false_split (n : Nat) (i : Option Str) :
    batchFilename n i false =
      "batches/batch".data ++ '_' :: (pad4 n ++ '_' :: (pyStr i ++ '.' :: "xml".data)) := by
  rw [name_false_shape, prefix_part_split,
    show ".xml".data = '.' :: "xml".data from rfl]
  simp [List.append_assoc]

theorem not_confirmed_word_infix_name (n : Nat) (i : Option Str)
    (hi : ¬ ("confirmed".data <:+: pyStr i)) :
    ¬ ("confirmed".data <:+: batchFilename n i false) := by
  intro h
  rw [full_false_split] at h
  rcases infix_split (by decide) (by decide) h with h1 | h1
  · exact absurd h1 (by decide)
  · rcases infix_split (by decide) (by decide) h1 with h2 | h2
    · exact not_confirmed_infix_pad4 n h2
    · rcases infix_split (by decide) (by decide) h2 with h3 | h3
      · exact hi h3
      · have := h3.sublist.length_le
        simp at this

theorem not_confirmed_infix_name (n : Nat) (i : Option Str)
    (hi : ¬ ("confirmed".data <:+: pyStr i)) :
    ¬ ("_confirmed".data <:+: batchFilename n i false) := by
  intro h
  apply not_confirmed_word_infix_name n i hi
  obtain ⟨s, t, heq⟩ := h
  refine ⟨s ++ ['_'], t, ?_⟩
  rw [← heq, show ("_confirmed".data : Str) = '_' :: "confirmed".data from rfl]
  simp [List.append_assoc]

theorem not_xml_infix_prefix_part (n : Nat) (i : Option Str)
    (hix : ¬ (".xml".data <:+: pyStr i)) :
    ¬ (".xml".data <:+: ("batches/batch_".data ++ pad4 n ++ "_".data ++ pyStr i)) := by
  intro h
  rw [prefix_part_split] at h
  rcases infix_split (by decide) (by decide) h with h1 | h1
  · exact absurd h1 (by decide)
  · rcases infix_split (by decide) (by decide) h1 with h2 | h2
    · exact not_xml_infix_pad4 n h2
    · exact hix h2

/-- On a name `save_batch` wrote for an unconfirmed batch with a clean index,
`update_confirmation` computes exactly the confirmed name of the same batch. -/
theorem confirmName_batchFilename (n : Nat) (i : Option Str)
    (h1 : ¬ ("confirmed".data <:+: pyStr i)) (h2 : ¬ (".xml".data <:+: pyStr i)) :
    confirmName (batchFilename n i false) = batchFilename n i true := by
  unfold confirmName
  rw [if_neg (not_confirmed_infix_name n i h1)]
  rw [name_false_shape, replaceAll_append_xml _ _ (not_xml_infix_prefix_part n i h2),
    name_true_shape]

theorem confirmed_infix_name_true (n : Nat) (i : Option Str) :
    "_confirmed".data <:+: batchFilename n i true := by
  rw [name_true_shape, show ("_confirmed.xml".data : Str) = "_confirmed".data ++ ".xml".data
    from rfl]
  exact ⟨"batches/batch_".data ++ pad4 n ++ "_".data ++ pyStr i, ".xml".data, by
    simp [List.append_assoc]⟩

theorem confirmed_infix_of_idx (n : Nat) (i : Str) (h : "_confirmed".data <:+: i) :
    "_confirmed".data <:+: batchFilename n (some i) false := by
  obtain ⟨s, t, heq⟩ := h
  rw [name_false_shape]
  refine ⟨"batches/batch_".data ++ pad4 n ++ "_".data ++ s, t ++ ".xml".data, ?_⟩
  rw [show pyStr (some i) = i from rfl, ← heq]
  simp [List.append_assoc]

/-! ## The sorted-last artifact -/

theorem foldl_max_spec (xs : Ledger) : ∀ a0 : Artifact,
    (xs.foldl (fun acc x => if ltb acc.name x.name then x else acc) a0) ∈ a0 :: xs ∧
    ∀ b ∈ a0 :: xs,
      ltb (xs.foldl (fun acc x => if ltb acc.name x.name then x else acc) a0).name b.name
        = false := by
  induction xs with
  | nil =>
    intro a0
    constructor
    · simp
    · intro b hb
      rw [List.mem_singleton] at hb
      subst hb
      exact ltb_irrefl _
  | cons x xs ih =>
    intro a0
    simp only [List.foldl_cons]
    obtain ⟨hmem, hmax⟩ := ih (if ltb a0.name x.name then x else a0)
    by_cases h01 : ltb a0.name x.name
    · rw [if_pos h01] at hmem hmax ⊢
      constructor
      · rcases List.mem_cons.mp hmem with h | h
        · rw [h]
          exact List.mem_cons_of_mem a0 (List.mem_cons_self x xs)
        · exact List.mem_cons_of_mem a0 (List.mem_cons_of_mem x h)
      · intro b hb
        rcases List.mem_cons.mp hb with rfl | hb
        · exact ltb_false_trans _ _ _ (hmax x (List.mem_cons_self x xs)) (ltb_asymm _ _ h01)
        · exact hmax b hb
    · rw [if_neg h01] at hmem hmax ⊢
      have h01' : ltb a0.name x.name = false := eq_false_of_ne_true h01
      constructor
      · rcases List.mem_cons.mp hmem with h | h
        · rw [h]
          exact List.mem_cons_self a0 (x :: xs)
        · exact List.mem_cons_of_mem a0 (List.mem_cons_of_mem x h)
      · intro b hb
        rcases List.mem_cons.mp hb with rfl | hb
        · exact hmax b (List.mem_cons_self b xs)
        · rcases List.mem_cons.mp hb with rfl | hb
          · exact ltb_false_trans _ _ _ (hmax a0 (List.mem_cons_self a0 xs)) h01'
          · exact hmax b (List.mem_cons_of_mem a0 hb)

theorem lastByName_spec (l : Ledger) (a : Artifact) (h : lastByName l = some a) :
    a ∈ l ∧ ∀ b ∈ l, ltb a.name b.name = false := by
  cases l with
  | nil => cases h
  | cons x xs =>
    unfold lastByName at h
    injection h with h
    subst h
    exact foldl_max_spec xs x

theorem lastByName_eq_of_max (l : Ledger) (x : Artifact) (hx : x ∈ l)
    (hmax : ∀ b ∈ l, b = x ∨ ltb b.name x.name = true) : lastByName l = some x := by
  cases hl : l with
  | nil => subst hl; cases hx
  | cons y ys =>
    subst hl
    obtain ⟨hmem, hge⟩ := lastByName_spec (y :: ys) _ rfl
    rcases hmax _ hmem with h | h
    · rw [show lastByName (y :: ys)
        = some (ys.foldl (fun acc x => if ltb acc.name x.name then x else acc) y) from rfl, h]
    · exact absurd h (by rw [hge x hx]; simp)

/-! ## Well-formed directory lemmas -/

theorem maxSeq_cons (x : BSpec) (xs : List BSpec) :
    maxSeq (x :: xs) = max x.seq (maxSeq xs) := rfl

theorem maxSeq_ge (sps : List BSpec) : ∀ s ∈ sps, s.seq ≤ maxSeq sps := by
  induction sps with
  | nil => intro s hs; cases hs
  | cons x xs ih =>
    intro s hs
    rw [maxSeq_cons]
    rcases List.mem_cons.mp hs with rfl | hs
    · exact le_max_left _ _
    · exact le_trans (ih s hs) (le_max_right _ _)

theorem maxSeq_exists (sps : List BSpec) (h : sps ≠ []) :
    ∃ m ∈ sps, m.seq = maxSeq sps := by
  induction sps with
  | nil => exact absurd rfl h
  | cons x xs ih =>
    by_cases hxs : xs = []
    · subst hxs
      exact ⟨x, by simp, by simp [maxSeq_cons, maxSeq]⟩
    · obtain ⟨m, hm, hmeq⟩ := ih hxs
      by_cases hcmp : x.seq ≤ maxSeq xs
      · exact ⟨m, List.mem_cons_of_mem x hm, by rw [maxSeq_cons, hmeq]; omega⟩
      · exact ⟨x, List.mem_cons_self x xs, by rw [maxSeq_cons]; omega⟩

theorem seqOf_art (sp : BSpec) (h : '/' ∉ pyStr sp.idx) : seqOf sp.art = sp.seq := by
  unfold seqOf
  rw [show sp.art.name = batchFilename sp.seq sp.idx sp.conf from rfl,
    parseBatchNum_batchFilename _ _ _ h]
  rfl

theorem art_name_ne {s t : BSpec} (hsi : '/' ∉ pyStr s.idx) (hti : '/' ∉ pyStr t.idx)
    (hne : s.seq ≠ t.seq) : s.art.name ≠ t.art.name := by
  intro h
  have h1 := parseBatchNum_batchFilename s.seq s.idx s.conf hsi
  have h2 := parseBatchNum_batchFilename t.seq t.idx t.conf hti
  rw [show batchFilename s.seq s.idx s.conf = s.art.name from rfl, h,
    show t.art.name = batchFilename t.seq t.idx t.conf from rfl, h2] at h1
  exact hne (Option.some.inj h1.symm)

theorem lastByName_WF (sps : List BSpec) (hwf : WF sps) (hne : sps ≠ []) :
    ∃ m ∈ sps, m.seq = maxSeq sps ∧ lastByName (sps.map BSpec.art) = some m.art := by
  obtain ⟨m, hm, hmeq⟩ := maxSeq_exists sps hne
  refine ⟨m, hm, hmeq, ?_⟩
  apply lastByName_eq_of_max
  · exact List.mem_map_of_mem _ hm
  · intro b hb
    obtain ⟨sp, hsp, rfl⟩ := List.mem_map.mp hb
    by_cases hspm : sp = m
    · left
      rw [hspm]
    · right
      have hseq_ne : sp.seq ≠ m.seq :=
        fun he => hspm (List.inj_on_of_nodup_map hwf.2 hsp hm he)
      have hlt : sp.seq < m.seq := lt_of_le_of_ne (hmeq ▸ maxSeq_ge sps sp hsp) hseq_ne
      show ltb (batchFilename sp.seq sp.idx sp.conf) (batchFilename m.seq m.idx m.conf) = true
      exact batchFilename_lt hlt (by have := (hwf.1 m hm).2.1; omega) _ _ _ _

theorem get_next_WF (sps : List BSpec) (hwf : WF sps) :
    get_next_batch_number (sps.map BSpec.art) = maxSeq sps + 1 := by
  by_cases hnil : sps = []
  · subst hnil
    rfl
  · obtain ⟨m, hm, hmeq, hlast⟩ := lastByName_WF sps hwf hnil
    unfold get_next_batch_number
    rw [hlast]
    show (parseBatchNum m.art.name).getD 0 + 1 = maxSeq sps + 1
    rw [show m.art.name = batchFilename m.seq m.idx m.conf from rfl,
      parseBatchNum_batchFilename _ _ _ (hwf.1 m hm).2.2.2.2, hmeq]
    rfl

theorem insertFile_fresh (l : Ledger) (a : Artifact) (h : ∀ b ∈ l, b.name ≠ a.name) :
    insertFile l a = l ++ [a] := by
  unfold insertFile
  congr 1
  apply List.filter_eq_self.mpr
  intro b hb
  simpa using h b hb

/-! ## Unfolding lemmas for one loop iteration -/

theorem cycleStep_none (l : Ledger) (ok : Bool) :
    cycleStep l none ok = ⟨l, .halted, (get_last_batch_info l).2, none⟩ := rfl

theorem cycleStep_corrupt (l : Ledger) (ok : Bool) :
    cycleStep l (some .corrupt) ok = ⟨l, .halted, (get_last_batch_info l).2, none⟩ := rfl

theorem cycleStep_xml_nil (l : Ledger) (tx : Option Str) (ok : Bool) :
    cycleStep l (some (.xml [] tx)) ok = ⟨l, .halted, (get_last_batch_info l).2, none⟩ := rfl

theorem cycleStep_xml_eq (l : Ledger) (b : Option Str) (rest : List (Option Str))
    (tx : Option Str) (ok : Bool) :
    cycleStep l (some (.xml (b :: rest) tx)) ok =
      if (get_last_batch_info l).2 ≠ none ∧ b = (get_last_batch_info l).2 then
        if ok then
          match (get_last_batch_info l).1 with
          | some lf =>
            if "_confirmed".data <:+: lf.name then ⟨l, .dup, none, none⟩
            else
              match update_confirmation l lf.name with
              | some (l2, _) => ⟨l2, .dup, none, none⟩
              | none => ⟨l, .dup, none, none⟩
          | none => ⟨l, .dup, none, none⟩
        else ⟨l, .dup, (get_last_batch_info l).2, none⟩
      else
        if ok then
          match update_confirmation
              (save_batch l (.xml (b :: rest) tx) (get_next_batch_number l) b false).1
              (save_batch l (.xml (b :: rest) tx) (get_next_batch_number l) b false).2 with
          | some (l2, _) => ⟨l2, .new, none,
              some (save_batch l (.xml (b :: rest) tx) (get_next_batch_number l) b false).2⟩
          | none => ⟨(save_batch l (.xml (b :: rest) tx) (get_next_batch_number l) b false).1,
              .new, none,
              some (save_batch l (.xml (b :: rest) tx) (get_next_batch_number l) b false).2⟩
        else ⟨(save_batch l (.xml (b :: rest) tx) (get_next_batch_number l) b false).1,
            .new, b,
            some (save_batch l (.xml (b :: rest) tx) (get_next_batch_number l) b false).2⟩ := rfl

theorem cycleStep_dup_cls (l : Ledger) (b : Option Str) (rest : List (Option Str))
    (tx : Option Str) (ok : Bool)
    (hcond : (get_last_batch_info l).2 ≠ none ∧ b = (get_last_batch_info l).2) :
    (cycleStep l (some (.xml (b :: rest) tx)) ok).cls = .dup := by
  rw [cycleStep_xml_eq, if_pos hcond]
  cases ok with
  | false => rfl
  | true =>
    rw [if_pos rfl]
    cases hlf : (get_last_batch_info l).1 with
    | none => rfl
    | some lf =>
      show (if "_confirmed".data <:+: lf.name then (⟨l, .dup, none, none⟩ : StepRes)
          else
            match update_confirmation l lf.name with
            | some (l2, _) => (⟨l2, .dup, none, none⟩ : StepRes)
            | none => ⟨l, .dup, none, none⟩).cls = Classify.dup
      by_cases hconf : "_confirmed".data <:+: lf.name
      · rw [if_pos hconf]
      · rw [if_neg hconf]
        cases hu : update_confirmation l lf.name with
        | none => rfl
        | some p => cases p with | mk l2 nm2 => rfl

theorem cycleStep_new_cls (l : Ledger) (b : Option Str) (rest : List (Option Str))
    (tx : Option Str) (ok : Bool)
    (hcond : ¬ ((get_last_batch_info l).2 ≠ none ∧ b = (get_last_batch_info l).2)) :
    (cycleStep l (some (.xml (b :: rest) tx)) ok).cls = .new := by
  rw [cycleStep_xml_eq, if_neg hcond]
  cases ok with
  | false => rfl
  | true =>
    rw [if_pos rfl]
    cases hu : update_confirmation
        (save_batch l (.xml (b :: rest) tx) (get_next_batch_number l) b false).1
        (save_batch l (.xml (b :: rest) tx) (get_next_batch_number l) b false).2 with
    | none => rfl
    | some p => cases p with | mk l2 nm2 => rfl

theorem cycleStep_dup_length (l : Ledger) (b : Option Str) (rest : List (Option Str))
    (tx : Option Str) (ok : Bool)
    (hcond : (get_last_batch_info l).2 ≠ none ∧ b = (get_last_batch_info l).2) :
    (cycleStep l (some (.xml (b :: rest) tx)) ok).ledger.length ≤ l.length := by
  rw [cycleStep_xml_eq, if_pos hcond]
  cases ok with
  | false => exact le_refl _
  | true =>
    rw [if_pos rfl]
    cases hlf : (get_last_batch_info l).1 with
    | none => exact le_refl _
    | some lf =>
      show (if "_confirmed".data <:+: lf.name then (⟨l, .dup, none, none⟩ : StepRes)
          else
            match update_confirmation l lf.name with
            | some (l2, _) => (⟨l2, .dup, none, none⟩ : StepRes)
            | none => ⟨l, .dup, none, none⟩).ledger.length ≤ l.length
      by_cases hconf : "_confirmed".data <:+: lf.name
      · rw [if_pos hconf]
      · rw [if_neg hconf]
        cases hu : update_confirmation l lf.name with
        | none => exact le_refl _
        | some p =>
          cases p with
          | mk l2 nm2 =>
            show l2.length ≤ l.length
            unfold update_confirmation at hu
            rw [if_neg hconf] at hu
            unfold renameFile at hu
            cases hfind : l.find? (fun x => x.name = lf.name) with
            | none => rw [hfind] at hu; cases hu
            | some a2 =>
              rw [hfind] at hu
              have h2 : (insertFile (l.filter (fun x => x.name ≠ lf.name))
                  ⟨confirmName lf.name, a2.content⟩, confirmName lf.name) = (l2, nm2) :=
                Option.some.inj hu
              have hl2 : l2 = insertFile (l.filter (fun x => x.name ≠ lf.name))
                  ⟨confirmName lf.name, a2.content⟩ := (congrArg Prod.fst h2).symm
              have ha2 : a2 ∈ l := List.mem_of_find?_eq_some hfind
              have ha2n : a2.name = lf.name := by
                have := List.find?_some hfind
                simpa using this
              have hlt : (l.filter (fun x => x.name ≠ lf.name)).length < l.length := by
                apply List.length_filter_lt_length_iff_exists.mpr
                exact ⟨a2, ha2, by simpa using ha2n⟩
              have : l2.length ≤ (l.filter (fun x => x.name ≠ lf.name)).length + 1 := by
                rw [hl2]
                unfold insertFile
                rw [List.length_append]
                have := List.length_filter_le (fun x => x.name ≠ (⟨confirmName lf.name, a2.content⟩ : Artifact).name) (l.filter (fun x => x.name ≠ lf.name))
                simpa using this
              omega
            
/-! ## Claims C10, C6, C4, C5 -/

/-- C10: when the lexicographically last artifact parses as well-formed XML
but contains no `book` element, or its first `book` lacks an `indeks`
attribute, `queryLast` returns that artifact reference together with
`firstIndex = none` without raising, the same degraded result as for an
unreadable file. -/
theorem c10_no_book_degrades (l : Ledger) (a : Artifact) (tx : Option Str)
    (h : lastByName l = some a)
    (hc : a.content = .xml [] tx ∨ ∃ rest, a.content = .xml (none :: rest) tx) :
    get_last_batch_info l = (some a, none) := by
  unfold get_last_batch_info
  rw [h]
  show (some a, firstIndexOf a.content) = (some a, none)
  rcases hc with hc | ⟨rest, hc⟩ <;> rw [hc] <;> rfl

/-- Witness for C10 at a concrete one-file directory with a book-less last
artifact. -/
theorem c10_witness :
    (lastByName ledgerNoBooks
        = some ⟨batchFilename 3 (some idxA1) false, .xml [] none⟩) ∧
    get_last_batch_info ledgerNoBooks
        = (some ⟨batchFilename 3 (some idxA1) false, .xml [] none⟩, none) :=
  ⟨by decide, c10_no_book_degrades ledgerNoBooks _ none (by decide) (Or.inl rfl)⟩

/-- C6: an unreadable last artifact yields `firstIndex = none` from
`queryLast` while `allocateNext` still parses the sequence number from the
artifact filename and returns it plus one; the parsed value defaults to `0`
(hence next number `1`) only when the name itself cannot be parsed. -/
theorem c6_corrupt_keeps_numbering (l : Ledger) (a : Artifact) (s : Nat)
    (i : Option Str) (cf : Bool) (hlast : lastByName l = some a)
    (hname : a.name = batchFilename s i cf) (hslash : '/' ∉ pyStr i)
    (hcorrupt : a.content = .corrupt) :
    (get_last_batch_info l).2 = none ∧ get_next_batch_number l = s + 1 ∧
      ∀ l2 a2, lastByName l2 = some a2 → parseBatchNum a2.name = none →
        get_next_batch_number l2 = 1 := by
  refine ⟨?_, ?_, ?_⟩
  · unfold get_last_batch_info
    rw [hlast]
    show firstIndexOf a.content = none
    rw [hcorrupt]
    rfl
  · unfold get_next_batch_number
    rw [hlast]
    show (parseBatchNum a.name).getD 0 + 1 = s + 1
    rw [hname, parseBatchNum_batchFilename _ _ _ hslash]
    rfl
  · intro l2 a2 h2 hp
    unfold get_next_batch_number
    rw [h2]
    show (parseBatchNum a2.name).getD 0 + 1 = 1
    rw [hp]
    rfl

/-- Witness for C6 at a concrete directory whose last artifact (sequence 6)
is unreadable. -/
theorem c6_witness :
    (lastByName ledgerCorrupt
        = some ⟨batchFilename 6 (some idxA2) false, FileContent.corrupt⟩ ∧
      '/' ∉ pyStr (some idxA2)) ∧
    ((get_last_batch_info ledgerCorrupt).2 = none ∧
      get_next_batch_number ledgerCorrupt = 7) :=
  ⟨⟨by decide, by decide⟩, by
    have h := c6_corrupt_keeps_numbering ledgerCorrupt
      ⟨batchFilename 6 (some idxA2) false, FileContent.corrupt⟩ 6 (some idxA2) false
      (by decide) rfl (by decide) rfl
    exact ⟨h.1, h.2.1⟩⟩

/-- C4 amended: for a Ledger whose last artifact is unconfirmed and whose
stored content yields a first-record index (`some x`), re-presenting the
exact same fetch response that produced it classifies as Duplicate. -/
theorem c4_resume_duplicate (l : Ledger) (a : Artifact) (books : List (Option Str))
    (tx : Option Str) (x : Str) (ok : Bool)
    (hlast : lastByName l = some a)
    (hunconf : unconfirmedName a.name)
    (hcontent : a.content = .xml books tx)
    (hfi : firstIndexOf a.content = some x) :
    (cycleStep l (some a.content) ok).cls = .dup := by
  have hlfi : (get_last_batch_info l).2 = some x := by
    unfold get_last_batch_info
    rw [hlast]
    show firstIndexOf a.content = some x
    exact hfi
  rcases books with _ | ⟨b, rest⟩
  · rw [hcontent] at hfi
    exact absurd hfi (by simp [firstIndexOf])
  · have hb : b = some x := by
      rw [hcontent] at hfi
      simpa [firstIndexOf] using hfi
    rw [hcontent]
    exact cycleStep_dup_cls l b rest tx ok ⟨by rw [hlfi]; simp, by rw [hb, hlfi]⟩

/-- Witness for C4 at a concrete one-file directory whose unconfirmed last
artifact stores index `A1`. -/
theorem c4_witness :
    (lastByName ledgerUnconfA1
        = some ⟨batchFilename 2 (some idxA1) false, respA1single⟩ ∧
      unconfirmedName (batchFilename 2 (some idxA1) false) ∧
      firstIndexOf respA1single = some idxA1) ∧
    (cycleStep ledgerUnconfA1 (some respA1single) true).cls = .dup :=
  ⟨⟨by decide, by decide, by decide⟩,
    c4_resume_duplicate ledgerUnconfA1 ⟨batchFilename 2 (some idxA1) false, respA1single⟩
      [some idxA1] (some "T2".data) idxA1 true (by decide) (by decide) rfl (by decide)⟩

/-- Counterexample to C4 as stated: the last artifact is unconfirmed, the
exact response that produced it is re-presented, yet because its first book
has no `indeks` attribute the cycle classifies it as New, not Duplicate. -/
theorem c4_counterexample :
    lastByName ledgerNoIdx = some ⟨batchFilename 1 none false, respNoIdx⟩ ∧
    unconfirmedName (batchFilename 1 none false) ∧
    (cycleStep ledgerNoIdx (some respNoIdx) true).cls = .new ∧
    (cycleStep ledgerNoIdx (some respNoIdx) true).cls ≠ .dup := by decide

/-- C5: a fetched response is classified Duplicate iff the consulted
`lastFirstIndex` is non-none and the response's first index equals it under
opaque string (option) equality; a response with first index none is never a
Duplicate; and a Duplicate classification never adds an artifact. -/
theorem c5_duplicate_iff (l : Ledger) (b : Option Str) (rest : List (Option Str))
    (tx : Option Str) (ok : Bool) :
    ((cycleStep l (some (.xml (b :: rest) tx)) ok).cls = .dup ↔
      ((get_last_batch_info l).2 ≠ none ∧ b = (get_last_batch_info l).2)) ∧
    (b = none → (cycleStep l (some (.xml (b :: rest) tx)) ok).cls ≠ .dup) ∧
    ((cycleStep l (some (.xml (b :: rest) tx)) ok).cls = .dup →
      (cycleStep l (some (.xml (b :: rest) tx)) ok).ledger.length ≤ l.length) := by
  by_cases hcond : (get_last_batch_info l).2 ≠ none ∧ b = (get_last_batch_info l).2
  · refine ⟨⟨fun _ => hcond, fun _ => cycleStep_dup_cls l b rest tx ok hcond⟩, ?_, ?_⟩
    · intro hbnone
      exfalso
      rcases hcond with ⟨hne, hbeq⟩
      rw [hbnone] at hbeq
      exact hne hbeq.symm
    · intro _
      exact cycleStep_dup_length l b rest tx ok hcond
  · have hnew := cycleStep_new_cls l b rest tx ok hcond
    refine ⟨⟨fun hd => ?_, fun hc => absurd hc hcond⟩, fun _ hd => ?_, fun hd => ?_⟩
    · rw [hnew] at hd
      exact absurd hd (by decide)
    · rw [hnew] at hd
      exact absurd hd (by decide)
    · rw [hnew] at hd
      exact absurd hd (by decide)

/-! ## Claims C2, C7, C9 -/

theorem cycleStep_ok_lastVar_dup (l : Ledger) (b : Option Str) (rest : List (Option Str))
    (tx : Option Str)
    (hcond : (get_last_batch_info l).2 ≠ none ∧ b = (get_last_batch_info l).2) :
    (cycleStep l (some (.xml (b :: rest) tx)) true).lastVar = none := by
  rw [cycleStep_xml_eq, if_pos hcond, if_pos rfl]
  cases hlf : (get_last_batch_info l).1 with
  | none => rfl
  | some lf =>
    show (if "_confirmed".data <:+: lf.name then (⟨l, .dup, none, none⟩ : StepRes)
        else
          match update_confirmation l lf.name with
          | some (l2, _) => (⟨l2, .dup, none, none⟩ : StepRes)
          | none => ⟨l, .dup, none, none⟩).lastVar = none
    by_cases hconf : "_confirmed".data <:+: lf.name
    · rw [if_pos hconf]
    · rw [if_neg hconf]
      cases hu : update_confirmation l lf.name with
      | none => rfl
      | some p => cases p with | mk l2 nm2 => rfl

theorem cycleStep_ok_lastVar_new (l : Ledger) (b : Option Str) (rest : List (Option Str))
    (tx : Option Str)
    (hcond : ¬ ((get_last_batch_info l).2 ≠ none ∧ b = (get_last_batch_info l).2)) :
    (cycleStep l (some (.xml (b :: rest) tx)) true).lastVar = none := by
  rw [cycleStep_xml_eq, if_neg hcond, if_pos rfl]
  cases hu : update_confirmation
      (save_batch l (.xml (b :: rest) tx) (get_next_batch_number l) b false).1
      (save_batch l (.xml (b :: rest) tx) (get_next_batch_number l) b false).2 with
  | none => rfl
  | some p => cases p with | mk l2 nm2 => rfl

/-- C2 amended: whenever the single confirm call of an iteration is reached
(the iteration does not halt) and succeeds, the in-memory `last_first_index`
variable is none at the end of the iteration body; however the next
iteration re-reads the value it consults from the Ledger (see the
counterexample: in the spec scenario that re-read value is `some "A1"`, not
none). -/
theorem c2_confirm_clears_var (l : Ledger) (fetch : Option FileContent)
    (hok : (cycleStep l fetch true).cls ≠ .halted) :
    (cycleStep l fetch true).lastVar = none := by
  cases fetch with
  | none =>
    rw [cycleStep_none] at hok
    exact absurd rfl hok
  | some c =>
    cases c with
    | corrupt =>
      rw [cycleStep_corrupt] at hok
      exact absurd rfl hok
    | xml books tx =>
      cases books with
      | nil =>
        rw [cycleStep_xml_nil] at hok
        exact absurd rfl hok
      | cons b rest =>
        by_cases hcond : (get_last_batch_info l).2 ≠ none ∧ b = (get_last_batch_info l).2
        · exact cycleStep_ok_lastVar_dup l b rest tx hcond
        · exact cycleStep_ok_lastVar_new l b rest tx hcond

/-- Witness for C2 (amended) at the spec scenario: empty Ledger, fetch with
first index `A1`, successful confirm. -/
theorem c2_witness :
    ((cycleStep [] (some respA1) true).cls ≠ .halted) ∧
    (cycleStep [] (some respA1) true).lastVar = none :=
  ⟨by decide, c2_confirm_clears_var [] (some respA1) (by decide)⟩

/-- Counterexample to C2 as stated: in the scenario (empty Ledger, fetch
`A1`, confirm succeeds) the value in effect at the next iteration's CLASSIFY
is re-read from the Ledger and equals `some "A1"`, not none. -/
theorem c2_counterexample :
    (cycleStep [] (some respA1) true).ledger
        = [⟨batchFilename 1 (some idxA1) true, respA1⟩] ∧
    (get_last_batch_info (cycleStep [] (some respA1) true).ledger).2 = some idxA1 ∧
    (get_last_batch_info (cycleStep [] (some respA1) true).ledger).2 ≠ none := by decide

/-- C7 amended: for sequence numbers `m < n` with `n ≤ 9999` (four digits,
where the zero-padding still makes lexicographic order agree with numeric
order), the artifact name computed for `m` is lexicographically smaller than
the one computed for `n`, for any indexes and confirmation flags. -/
theorem c7_name_order (m n : Nat) (i j : Option Str) (c d : Bool)
    (h0 : 0 < m) (hmn : m < n) (hn : n ≤ 9999) :
    ltb (batchFilename m i c) (batchFilename n j d) = true :=
  batchFilename_lt hmn hn i j c d

/-- Witness for C7 (amended) at sequence numbers 1 and 2. -/
theorem c7_witness :
    (0 < 1 ∧ 1 < 2 ∧ 2 ≤ 9999) ∧
    ltb (batchFilename 1 (some idxA1) false) (batchFilename 2 (some idxA2) true) = true :=
  ⟨by decide, c7_name_order 1 2 (some idxA1) (some idxA2) false true
    (by decide) (by decide) (by decide)⟩

/-- Counterexample to C7 as stated: at the 4-to-5-digit boundary the
zero-padded name ordering breaks: the name for 9999 is not lexicographically
smaller than the name for 10000. -/
theorem c7_counterexample :
    0 < 9999 ∧ 9999 < 10000 ∧
    ltb (batchFilename 9999 (some idxA1) false) (batchFilename 10000 (some idxA1) false)
      = false := by decide

/-- C9 amended: for an index containing neither `confirmed` nor `.xml`,
finalize on the unconfirmed persisted name yields exactly the confirmed
persisted name; for an index containing `_confirmed`, finalize returns the
unconfirmed name unchanged. -/
theorem c9_serialize_finalize (n : Nat) (i : Str)
    (hconf : ¬ ("confirmed".data <:+: i)) (hxml : ¬ (".xml".data <:+: i)) :
    confirmName (batchFilename n (some i) false) = batchFilename n (some i) true ∧
    ∀ n2 i2, "_confirmed".data <:+: i2 →
      confirmName (batchFilename n2 (some i2) false)
        = batchFilename n2 (some i2) false := by
  constructor
  · exact confirmName_batchFilename n (some i) hconf hxml
  · intro n2 i2 h2
    unfold confirmName
    rw [if_pos (confirmed_infix_of_idx n2 i2 h2)]

/-- Witness for C9 (amended) at a concrete clean index. -/
theorem c9_witness :
    (¬ ("confirmed".data <:+: "K7".data) ∧ ¬ (".xml".data <:+: "K7".data)) ∧
    confirmName (batchFilename 4 (some "K7".data) false)
      = batchFilename 4 (some "K7".data) true :=
  ⟨⟨by decide, by decide⟩, (c9_serialize_finalize 4 "K7".data (by decide) (by decide)).1⟩

/-- Counterexample to C9 as stated: the index `confirmed` contains neither
the substring `_confirmed` nor `.xml`, yet finalize leaves the unconfirmed
name unchanged (the `_` before the index comes from the name pattern), so
the serialize/finalize pair disagrees. -/
theorem c9_counterexample :
    ¬ ("_confirmed".data <:+: "confirmed".data) ∧
    ¬ (".xml".data <:+: "confirmed".data) ∧
    confirmName (batchFilename 7 (some "confirmed".data) false)
      ≠ batchFilename 7 (some "confirmed".data) true := by decide

/-! ## Claim C8 -/

theorem mem_filter_name_ne {L : Ledger} {nm : Str} {x : Artifact}
    (hx : x ∈ L.filter (fun b => b.name ≠ nm)) : x ∈ L ∧ x.name ≠ nm := by
  have h := List.mem_filter.mp hx
  exact ⟨h.1, by simpa using h.2⟩

theorem filter_name_ne_self {L : Ledger} {nm : Str} (h : ∀ x ∈ L, x.name ≠ nm) :
    L.filter (fun b => b.name ≠ nm) = L :=
  List.filter_eq_self.mpr (fun x hx => by simpa using h x hx)

theorem find?_name_in_append (L : Ledger) (a : Artifact) (nm : Str)
    (hL : ∀ x ∈ L, x.name ≠ nm) (ha : a.name = nm) :
    (L ++ [a]).find? (fun b => b.name = nm) = some a := by
  rw [List.find?_append, List.find?_eq_none.mpr (fun x hx => by simpa using hL x hx)]
  simp [List.find?, ha]

theorem update_confirmation_found (L : Ledger) (nm : Str) (a : Artifact)
    (hnc : ¬ ("_confirmed".data <:+: nm))
    (hfind : L.find? (fun b => b.name = nm) = some a) :
    update_confirmation L nm
      = some (insertFile (L.filter (fun b => b.name ≠ nm)) ⟨confirmName nm, a.content⟩,
          confirmName nm) := by
  unfold update_confirmation renameFile
  rw [if_neg hnc, hfind]
  rfl

/-- C8: finalize is idempotent — on a name already carrying the confirmed
marker it returns directory and name unchanged without renaming, and a
second finalize of the artifact reference a successful finalize returned
yields the same on-disk name and does not error. -/
theorem c8_finalize_idempotent (l : Ledger) (nm : Str) (l2 : Ledger) (nm2 : Str)
    (h : update_confirmation l nm = some (l2, nm2)) :
    (("_confirmed".data <:+: nm) → l2 = l ∧ nm2 = nm) ∧
    update_confirmation l2 nm2 = some (l2, nm2) := by
  by_cases hc : "_confirmed".data <:+: nm
  · unfold update_confirmation at h
    rw [if_pos hc] at h
    have h2 := Option.some.inj h
    have hl : l = l2 := congrArg Prod.fst h2
    have hn : nm = nm2 := congrArg Prod.snd h2
    subst hl
    subst hn
    refine ⟨fun _ => ⟨rfl, rfl⟩, ?_⟩
    unfold update_confirmation
    rw [if_pos hc]
  · unfold update_confirmation at h
    rw [if_neg hc] at h
    unfold renameFile at h
    cases hfind : l.find? (fun x => x.name = nm) with
    | none =>
      rw [hfind] at h
      cases h
    | some a =>
      rw [hfind] at h
      have h2 := Option.some.inj h
      have hl2 : l2 = insertFile (l.filter (fun x => x.name ≠ nm))
          ⟨confirmName nm, a.content⟩ := (congrArg Prod.fst h2).symm
      have hn2 : nm2 = confirmName nm := (congrArg Prod.snd h2).symm
      refine ⟨fun hcc => absurd hcc hc, ?_⟩
      by_cases hx : ".xml".data <:+: nm
      · have hcnm2 : "_confirmed".data <:+: nm2 := by
          rw [hn2]
          unfold confirmName
          rw [if_neg hc]
          exact confirmed_infix_replace nm hx
        unfold update_confirmation
        rw [if_pos hcnm2]
      · have hcn : confirmName nm = nm := by
          unfold confirmName
          rw [if_neg hc]
          exact replaceAll_no_occurrence _ (by decide) _ nm hx
        have hn2' : nm2 = nm := by rw [hn2, hcn]
        rw [hn2']
        have hl2' : l2 = l.filter (fun x => x.name ≠ nm)
            ++ [(⟨nm, a.content⟩ : Artifact)] := by
          rw [hl2, hcn]
          show (l.filter (fun x => x.name ≠ nm)).filter (fun b => b.name ≠ nm)
            ++ [(⟨nm, a.content⟩ : Artifact)] = _
          rw [filter_name_ne_self (fun x hx2 => (mem_filter_name_ne hx2).2)]
        have hfind2 : l2.find? (fun b => b.name = nm) = some (⟨nm, a.content⟩ : Artifact) := by
          rw [hl2']
          exact find?_name_in_append _ _ _ (fun x hx2 => (mem_filter_name_ne hx2).2) rfl
        rw [update_confirmation_found l2 nm ⟨nm, a.content⟩ hc hfind2, hcn]
        have hLf2 : l2.filter (fun b => b.name ≠ nm) = l.filter (fun x => x.name ≠ nm) := by
          rw [hl2', List.filter_append,
            filter_name_ne_self (fun x hx2 => (mem_filter_name_ne hx2).2)]
          simp
        rw [hLf2]
        show some (((l.filter (fun x => x.name ≠ nm)).filter (fun b => b.name ≠ nm))
            ++ [(⟨nm, a.content⟩ : Artifact)], nm) = _
        rw [filter_name_ne_self (fun x hx2 => (mem_filter_name_ne hx2).2), ← hl2']

/-- Witness for C8 on a concrete directory and unconfirmed artifact name. -/
theorem c8_witness :
    (update_confirmation ledgerUnconfA1 (batchFilename 2 (some idxA1) false)
        = some ([⟨batchFilename 2 (some idxA1) true, respA1single⟩],
            batchFilename 2 (some idxA1) true)) ∧
    update_confirmation [⟨batchFilename 2 (some idxA1) true, respA1single⟩]
        (batchFilename 2 (some idxA1) true)
      = some ([⟨batchFilename 2 (some idxA1) true, respA1single⟩],
          batchFilename 2 (some idxA1) true) :=
  ⟨by decide,
    (c8_finalize_idempotent ledgerUnconfA1 (batchFilename 2 (some idxA1) false)
      [⟨batchFilename 2 (some idxA1) true, respA1single⟩]
      (batchFilename 2 (some idxA1) true) (by decide)).2⟩

/-! ## Spec-level description of the directory across one iteration -/

theorem maxSeq_le (sps : List BSpec) (B : Nat) (h : ∀ s ∈ sps, s.seq ≤ B) :
    maxSeq sps ≤ B := by
  induction sps with
  | nil => exact Nat.zero_le B
  | cons x xs ih =>
    rw [maxSeq_cons]
    have h1 := h x (List.mem_cons_self x xs)
    have h2 := ih (fun s hs => h s (List.mem_cons_of_mem x hs))
    omega

theorem maxSeq_append_one (sps : List BSpec) (x : BSpec) :
    maxSeq (sps ++ [x]) = max (maxSeq sps) x.seq := by
  induction sps with
  | nil =>
    rw [List.nil_append, maxSeq_cons]
    show max x.seq 0 = max 0 x.seq
    omega
  | cons y ys ih =>
    rw [List.cons_append, maxSeq_cons, ih, maxSeq_cons]
    omega

theorem lastByName_of_specs (sps : List BSpec) (hb : ∀ s ∈ sps, s.seq ≤ 9999)
    (hnd : (sps.map BSpec.seq).Nodup) (hsl : ∀ s ∈ sps, '/' ∉ pyStr s.idx)
    (hne : sps ≠ []) :
    ∃ m ∈ sps, m.seq = maxSeq sps ∧ lastByName (sps.map BSpec.art) = some m.art := by
  obtain ⟨m, hm, hmeq⟩ := maxSeq_exists sps hne
  refine ⟨m, hm, hmeq, ?_⟩
  apply lastByName_eq_of_max
  · exact List.mem_map_of_mem _ hm
  · intro b hb2
    obtain ⟨sp, hsp, rfl⟩ := List.mem_map.mp hb2
    by_cases hspm : sp = m
    · left
      rw [hspm]
    · right
      have hseq_ne : sp.seq ≠ m.seq :=
        fun he => hspm (List.inj_on_of_nodup_map hnd hsp hm he)
      have hlt : sp.seq < m.seq := lt_of_le_of_ne (hmeq ▸ maxSeq_ge sps sp hsp) hseq_ne
      show ltb (batchFilename sp.seq sp.idx sp.conf) (batchFilename m.seq m.idx m.conf) = true
      exact batchFilename_lt hlt (hb m hm) _ _ _ _

theorem get_next_of_specs (sps : List BSpec) (hb : ∀ s ∈ sps, s.seq ≤ 9999)
    (hnd : (sps.map BSpec.seq).Nodup) (hsl : ∀ s ∈ sps, '/' ∉ pyStr s.idx) :
    get_next_batch_number (sps.map BSpec.art) = maxSeq sps + 1 := by
  by_cases hnil : sps = []
  · subst hnil
    rfl
  · obtain ⟨m, hm, hmeq, hlast⟩ := lastByName_of_specs sps hb hnd hsl hnil
    unfold get_next_batch_number
    rw [hlast]
    show (parseBatchNum m.art.name).getD 0 + 1 = maxSeq sps + 1
    rw [show m.art.name = batchFilename m.seq m.idx m.conf from rfl,
      parseBatchNum_batchFilename _ _ _ (hsl m hm), hmeq]
    rfl

theorem spec_eq_of_name_eq {sps : List BSpec} (hnd : (sps.map BSpec.seq).Nodup)
    (hsl : ∀ s ∈ sps, '/' ∉ pyStr s.idx) {s t : BSpec} (hs : s ∈ sps) (ht : t ∈ sps)
    (h : s.art.name = t.art.name) : s = t := by
  have p1 := parseBatchNum_batchFilename s.seq s.idx s.conf (hsl s hs)
  have p2 := parseBatchNum_batchFilename t.seq t.idx t.conf (hsl t ht)
  rw [show batchFilename s.seq s.idx s.conf = s.art.name from rfl, h,
    show t.art.name = batchFilename t.seq t.idx t.conf from rfl, p2] at p1
  exact List.inj_on_of_nodup_map hnd hs ht (Option.some.inj p1).symm

theorem unconf_art_iff (sp : BSpec) (hc : ¬ ("confirmed".data <:+: pyStr sp.idx)) :
    unconfirmedName sp.art.name ↔ sp.conf = false := by
  cases hcm : sp.conf
  · exact iff_of_true
      (by
        show ¬ ("_confirmed".data <:+: sp.art.name)
        rw [show sp.art.name = batchFilename sp.seq sp.idx sp.conf from rfl, hcm]
        exact not_confirmed_infix_name _ _ hc)
      rfl
  · exact iff_of_false
      (by
        intro hu
        apply hu
        rw [show sp.art.name = batchFilename sp.seq sp.idx sp.conf from rfl, hcm]
        exact confirmed_infix_name_true _ _)
      (by simp)

theorem find?_name_unique (L : Ledger) (x : Artifact) (hx : x ∈ L)
    (huniq : ∀ y ∈ L, y.name = x.name → y = x) :
    L.find? (fun b => b.name = x.name) = some x := by
  induction L with
  | nil => cases hx
  | cons y ys ih =>
    by_cases hy : y.name = x.name
    · have hyx : y = x := huniq y (List.mem_cons_self y ys) hy
      subst hyx
      simp [List.find?, hy]
    · have hx' : x ∈ ys := by
        rcases List.mem_cons.mp hx with rfl | h
        · exact absurd rfl hy
        · exact h
      have hstep : List.find? (fun b => decide (b.name = x.name)) (y :: ys)
          = List.find? (fun b => decide (b.name = x.name)) ys := by
        simp [List.find?, hy]
      rw [show (List.find? (fun b => b.name = x.name) (y :: ys))
        = List.find? (fun b => decide (b.name = x.name)) (y :: ys) from rfl, hstep]
      exact ih hx' (fun y2 hy2 he => huniq y2 (List.mem_cons_of_mem y hy2) he)

theorem new_step_ledger_spec (sps : List BSpec) (b : Option Str) (rest : List (Option Str))
    (tx : Option Str) (ok : Bool) (hwf : WF sps) (hib : idxOk b)
    (hcond : ¬ ((get_last_batch_info (sps.map BSpec.art)).2 ≠ none ∧
        b = (get_last_batch_info (sps.map BSpec.art)).2)) :
    (cycleStep (sps.map BSpec.art) (some (.xml (b :: rest) tx)) ok).ledger
      = (sps ++ [(⟨maxSeq sps + 1, b, ok, .xml (b :: rest) tx⟩ : BSpec)]).map BSpec.art := by
  have hsl : ∀ s ∈ sps, '/' ∉ pyStr s.idx := fun s hs => (hwf.1 s hs).2.2.2.2
  have hb9 : ∀ s ∈ sps, s.seq ≤ 9999 := fun s hs => by
    have := (hwf.1 s hs).2.1
    omega
  have hnext : get_next_batch_number (sps.map BSpec.art) = maxSeq sps + 1 :=
    get_next_of_specs sps hb9 hwf.2 hsl
  have hfresh : ∀ cf : Bool, ∀ y ∈ sps.map BSpec.art,
      y.name ≠ batchFilename (maxSeq sps + 1) b cf := by
    intro cf y hy he
    obtain ⟨sp, hsp, rfl⟩ := List.mem_map.mp hy
    have p1 := parseBatchNum_batchFilename sp.seq sp.idx sp.conf (hsl sp hsp)
    have p2 := parseBatchNum_batchFilename (maxSeq sps + 1) b cf hib.2.2
    rw [show batchFilename sp.seq sp.idx sp.conf = sp.art.name from rfl, he, p2] at p1
    have h3 := maxSeq_ge sps sp hsp
    have h4 := Option.some.inj p1
    omega
  have hsv1 : (save_batch (sps.map BSpec.art) (.xml (b :: rest) tx)
      (get_next_batch_number (sps.map BSpec.art)) b false).1
      = sps.map BSpec.art
        ++ [⟨batchFilename (maxSeq sps + 1) b false, .xml (b :: rest) tx⟩] := by
    show insertFile (sps.map BSpec.art)
        ⟨batchFilename (get_next_batch_number (sps.map BSpec.art)) b false,
          .xml (b :: rest) tx⟩ = _
    rw [hnext]
    exact insertFile_fresh _ _ (hfresh false)
  have hsv2 : (save_batch (sps.map BSpec.art) (.xml (b :: rest) tx)
      (get_next_batch_number (sps.map BSpec.art)) b false).2
      = batchFilename (maxSeq sps + 1) b false := by
    show batchFilename (get_next_batch_number (sps.map BSpec.art)) b false = _
    rw [hnext]
  rw [cycleStep_xml_eq, if_neg hcond]
  cases ok with
  | false =>
    show (save_batch (sps.map BSpec.art) (.xml (b :: rest) tx)
      (get_next_batch_number (sps.map BSpec.art)) b false).1 = _
    rw [hsv1, List.map_append]
    rfl
  | true =>
    rw [if_pos rfl]
    have hnc : ¬ ("_confirmed".data <:+: batchFilename (maxSeq sps + 1) b false) :=
      not_confirmed_infix_name _ _ hib.1
    have hfind : (sps.map BSpec.art
        ++ [(⟨batchFilename (maxSeq sps + 1) b false, .xml (b :: rest) tx⟩ : Artifact)]).find?
          (fun x => x.name = batchFilename (maxSeq sps + 1) b false)
        = some ⟨batchFilename (maxSeq sps + 1) b false, .xml (b :: rest) tx⟩ :=
      find?_name_in_append _ _ _ (hfresh false) rfl
    rw [hsv1, hsv2,
      update_confirmation_found _ _ _ hnc hfind]
    show insertFile ((sps.map BSpec.art
        ++ [(⟨batchFilename (maxSeq sps + 1) b false, .xml (b :: rest) tx⟩ : Artifact)]).filter
          (fun x => x.name ≠ batchFilename (maxSeq sps + 1) b false))
        ⟨confirmName (batchFilename (maxSeq sps + 1) b false), .xml (b :: rest) tx⟩ = _
    rw [List.filter_append, filter_name_ne_self (hfresh false),
      confirmName_batchFilename _ _ hib.1 hib.2.1]
    have hsingle : ([(⟨batchFilename (maxSeq sps + 1) b false,
        .xml (b :: rest) tx⟩ : Artifact)].filter
          (fun x => x.name ≠ batchFilename (maxSeq sps + 1) b false)) = [] := by
      simp
    rw [hsingle, List.append_nil]
    rw [insertFile_fresh _ _ (hfresh true), List.map_append]
    rfl

theorem dup_ok_ledger_spec (sps : List BSpec) (b : Option Str) (rest : List (Option Str))
    (tx : Option Str) (hwf : WF sps)
    (hcond : (get_last_batch_info (sps.map BSpec.art)).2 ≠ none ∧
        b = (get_last_batch_info (sps.map BSpec.art)).2) :
    ∃ m ∈ sps, m.seq = maxSeq sps ∧
      ((cycleStep (sps.map BSpec.art) (some (.xml (b :: rest) tx)) true).ledger
          = sps.map BSpec.art ∨
        (m.conf = false ∧
          (cycleStep (sps.map BSpec.art) (some (.xml (b :: rest) tx)) true).ledger
            = (sps.filter (fun sp : BSpec => sp.art.name ≠ m.art.name)
                ++ [(⟨m.seq, m.idx, true, m.content⟩ : BSpec)]).map BSpec.art)) := by
  have hsl : ∀ s ∈ sps, '/' ∉ pyStr s.idx := fun s hs => (hwf.1 s hs).2.2.2.2
  have hb9 : ∀ s ∈ sps, s.seq ≤ 9999 := fun s hs => by
    have := (hwf.1 s hs).2.1
    omega
  have hne : sps ≠ [] := by
    intro h
    subst h
    exact hcond.1 rfl
  obtain ⟨m, hm, hmeq, hlast⟩ := lastByName_of_specs sps hb9 hwf.2 hsl hne
  refine ⟨m, hm, hmeq, ?_⟩
  have h1 : (get_last_batch_info (sps.map BSpec.art)).1 = some m.art := by
    unfold get_last_batch_info
    rw [hlast]
  rw [cycleStep_xml_eq, if_pos hcond, if_pos rfl, h1]
  by_cases hconf : "_confirmed".data <:+: m.art.name
  · left
    show (if "_confirmed".data <:+: m.art.name then
        (⟨sps.map BSpec.art, .dup, none, none⟩ : StepRes)
      else
        match update_confirmation (sps.map BSpec.art) m.art.name with
        | some (l2, _) => (⟨l2, .dup, none, none⟩ : StepRes)
        | none => ⟨sps.map BSpec.art, .dup, none, none⟩).ledger = sps.map BSpec.art
    rw [if_pos hconf]
  · right
    have hmconf : m.conf = false := by
      cases hcm : m.conf
      · rfl
      · exfalso
        apply hconf
        rw [show m.art.name = batchFilename m.seq m.idx m.conf from rfl, hcm]
        exact confirmed_infix_name_true _ _
    refine ⟨hmconf, ?_⟩
    have hfind : (sps.map BSpec.art).find? (fun x => x.name = m.art.name) = some m.art := by
      apply find?_name_unique _ _ (List.mem_map_of_mem _ hm)
      intro y hy he
      obtain ⟨sp, hsp, rfl⟩ := List.mem_map.mp hy
      rw [spec_eq_of_name_eq hwf.2 hsl hsp hm he]
    have hcn : confirmName m.art.name = batchFilename m.seq m.idx true := by
      rw [show m.art.name = batchFilename m.seq m.idx m.conf from rfl, hmconf]
      exact confirmName_batchFilename _ _ (hwf.1 m hm).2.2.1 (hwf.1 m hm).2.2.2.1
    show (if "_confirmed".data <:+: m.art.name then
        (⟨sps.map BSpec.art, .dup, none, none⟩ : StepRes)
      else
        match update_confirmation (sps.map BSpec.art) m.art.name with
        | some (l2, _) => (⟨l2, .dup, none, none⟩ : StepRes)
        | none => ⟨sps.map BSpec.art, .dup, none, none⟩).ledger = _
    rw [if_neg hconf, update_confirmation_found _ _ _ hconf hfind]
    show insertFile ((sps.map BSpec.art).filter (fun x => x.name ≠ m.art.name))
        ⟨confirmName m.art.name, m.art.content⟩ = _
    rw [hcn, List.filter_map]
    have hfresh2 : ∀ y ∈ (sps.filter
        (fun sp => ((fun x => decide (x.name ≠ m.art.name)) ∘ BSpec.art) sp)).map BSpec.art,
        y.name ≠ batchFilename m.seq m.idx true := by
      intro y hy he
      obtain ⟨sp, hsp, rfl⟩ := List.mem_map.mp hy
      have hsp2 := List.mem_filter.mp hsp
      have hspmem : sp ∈ sps := hsp2.1
      have hspne : sp.art.name ≠ m.art.name := by simpa using hsp2.2
      have p1 := parseBatchNum_batchFilename sp.seq sp.idx sp.conf (hsl sp hspmem)
      have p2 := parseBatchNum_batchFilename m.seq m.idx true (hsl m hm)
      rw [show batchFilename sp.seq sp.idx sp.conf = sp.art.name from rfl, he, p2] at p1
      have hseq : sp.seq = m.seq := (Option.some.inj p1).symm
      exact hspne (congrArg BSpec.art (List.inj_on_of_nodup_map hwf.2 hspmem hm hseq)
        ▸ rfl)
    rw [insertFile_fresh _ _ hfresh2, List.map_append]
    rfl

/-! ## Claim C1 -/

/-- C1 amended: over a well-formed Ledger, the estimated records-downloaded
counter `(sequenceNumber - 1) * batchSize` is unchanged by a Duplicate
iteration, and advances by exactly one batch on every New iteration —
regardless of whether the confirm call succeeds, because the artifact is
persisted before the confirm call and the counter is recomputed from the
Ledger. -/
theorem c1_records_counter (sps : List BSpec) (b : Option Str) (rest : List (Option Str))
    (tx : Option Str) (ok : Bool) (batchSize : Nat) (hwf : WF sps) (hib : idxOk b) :
    ((cycleStep (sps.map BSpec.art) (some (.xml (b :: rest) tx)) ok).cls = .dup →
      recordsDownloaded
          (cycleStep (sps.map BSpec.art) (some (.xml (b :: rest) tx)) ok).ledger batchSize
        = recordsDownloaded (sps.map BSpec.art) batchSize) ∧
    ((cycleStep (sps.map BSpec.art) (some (.xml (b :: rest) tx)) ok).cls = .new →
      recordsDownloaded
          (cycleStep (sps.map BSpec.art) (some (.xml (b :: rest) tx)) ok).ledger batchSize
        = recordsDownloaded (sps.map BSpec.art) batchSize + batchSize) := by
  have hsl : ∀ s ∈ sps, '/' ∉ pyStr s.idx := fun s hs => (hwf.1 s hs).2.2.2.2
  have hb9 : ∀ s ∈ sps, s.seq ≤ 9999 := fun s hs => by
    have := (hwf.1 s hs).2.1
    omega
  have hnext : get_next_batch_number (sps.map BSpec.art) = maxSeq sps + 1 :=
    get_next_of_specs sps hb9 hwf.2 hsl
  by_cases hcond : (get_last_batch_info (sps.map BSpec.art)).2 ≠ none ∧
      b = (get_last_batch_info (sps.map BSpec.art)).2
  · constructor
    · intro _
      cases ok with
      | false =>
        rw [cycleStep_xml_eq, if_pos hcond]
        rfl
      | true =>
        obtain ⟨m, hm, hmeq, hcase⟩ := dup_ok_ledger_spec sps b rest tx hwf hcond
        rcases hcase with hl | ⟨hmcf, hl⟩
        · rw [hl]
        · rw [hl]
          unfold recordsDownloaded
          rw [hnext]
          have hmem2 : ∀ s ∈ sps.filter (fun sp : BSpec => sp.art.name ≠ m.art.name)
              ++ [(⟨m.seq, m.idx, true, m.content⟩ : BSpec)],
              s ∈ sps ∨ s = ⟨m.seq, m.idx, true, m.content⟩ := by
            intro s hs
            rcases List.mem_append.mp hs with hs | hs
            · exact Or.inl (List.mem_filter.mp hs).1
            · exact Or.inr (List.mem_singleton.mp hs)
          have hb9' : ∀ s ∈ sps.filter (fun sp : BSpec => sp.art.name ≠ m.art.name)
              ++ [(⟨m.seq, m.idx, true, m.content⟩ : BSpec)], s.seq ≤ 9999 := by
            intro s hs
            rcases hmem2 s hs with hs' | hs'
            · exact hb9 s hs'
            · rw [hs']
              exact hb9 m hm
          have hsl' : ∀ s ∈ sps.filter (fun sp : BSpec => sp.art.name ≠ m.art.name)
              ++ [(⟨m.seq, m.idx, true, m.content⟩ : BSpec)], '/' ∉ pyStr s.idx := by
            intro s hs
            rcases hmem2 s hs with hs' | hs'
            · exact hsl s hs'
            · rw [hs']
              exact hsl m hm
          have hnd' : (((sps.filter (fun sp : BSpec => sp.art.name ≠ m.art.name)
              ++ [(⟨m.seq, m.idx, true, m.content⟩ : BSpec)]).map BSpec.seq)).Nodup := by
            rw [List.map_append]
            apply List.Nodup.append
            · exact (((List.filter_sublist sps).map BSpec.seq)).nodup hwf.2
            · exact List.nodup_singleton _
            · intro x hx hy
              obtain ⟨sp, hsp, rfl⟩ := List.mem_map.mp hx
              have hspf := List.mem_filter.mp hsp
              have hxseq : sp.seq = m.seq := by simpa using hy
              have hspm : sp = m := List.inj_on_of_nodup_map hwf.2 hspf.1 hm hxseq
              rw [hspm] at hspf
              simp at hspf
          rw [get_next_of_specs _ hb9' hnd' hsl', maxSeq_append_one]
          have hle : maxSeq (sps.filter (fun sp : BSpec => sp.art.name ≠ m.art.name))
              ≤ maxSeq sps :=
            maxSeq_le _ _ (fun s hs => maxSeq_ge sps s (List.mem_filter.mp hs).1)
          have hmax' : max (maxSeq (sps.filter
              (fun sp : BSpec => sp.art.name ≠ m.art.name)))
              (⟨m.seq, m.idx, true, m.content⟩ : BSpec).seq = maxSeq sps := by
            show max _ m.seq = maxSeq sps
            omega
          rw [hmax']
    · intro hnew
      have hdup := cycleStep_dup_cls (sps.map BSpec.art) b rest tx ok hcond
      rw [hdup] at hnew
      exact absurd hnew (by decide)
  · have hcls := cycleStep_new_cls (sps.map BSpec.art) b rest tx ok hcond
    constructor
    · intro hdup
      rw [hcls] at hdup
      exact absurd hdup (by decide)
    · intro _
      rw [new_step_ledger_spec sps b rest tx ok hwf hib hcond]
      unfold recordsDownloaded
      rw [hnext]
      have hb9' : ∀ s ∈ sps ++ [(⟨maxSeq sps + 1, b, ok, .xml (b :: rest) tx⟩ : BSpec)],
          s.seq ≤ 9999 := by
        intro s hs
        rcases List.mem_append.mp hs with hs' | hs'
        · exact hb9 s hs'
        · rw [List.mem_singleton.mp hs']
          show maxSeq sps + 1 ≤ 9999
          have := maxSeq_le sps 9998 (fun s hs2 => (hwf.1 s hs2).2.1)
          omega
      have hsl' : ∀ s ∈ sps ++ [(⟨maxSeq sps + 1, b, ok, .xml (b :: rest) tx⟩ : BSpec)],
          '/' ∉ pyStr s.idx := by
        intro s hs
        rcases List.mem_append.mp hs with hs' | hs'
        · exact hsl s hs'
        · rw [List.mem_singleton.mp hs']
          exact hib.2.2
      have hnd' : (((sps ++ [(⟨maxSeq sps + 1, b, ok, .xml (b :: rest) tx⟩ : BSpec)]).map
          BSpec.seq)).Nodup := by
        rw [List.map_append]
        apply List.Nodup.append hwf.2 (List.nodup_singleton _)
        intro x hx hy
        obtain ⟨sp, hsp, rfl⟩ := List.mem_map.mp hx
        have h1 := maxSeq_ge sps sp hsp
        have h2 : sp.seq = maxSeq sps + 1 := by simpa using hy
        omega
      rw [get_next_of_specs _ hb9' hnd' hsl', maxSeq_append_one]
      have hmax' : max (maxSeq sps)
          (⟨maxSeq sps + 1, b, ok, FileContent.xml (b :: rest) tx⟩ : BSpec).seq
          = maxSeq sps + 1 := by
        show max (maxSeq sps) (maxSeq sps + 1) = maxSeq sps + 1
        omega
      rw [hmax']
      show (maxSeq sps + 1 + 1 - 1) * batchSize = (maxSeq sps + 1 - 1) * batchSize + batchSize
      simp only [Nat.add_sub_cancel]
      rw [Nat.succ_mul]

/-- Witness for C1 (amended) at the empty well-formed Ledger with a New
iteration. -/
theorem c1_witness :
    (WF [] ∧ idxOk (some idxA1)) ∧
    ((cycleStep (([] : List BSpec).map BSpec.art) (some (.xml (some idxA1 :: []) none))
        false).cls = .new →
      recordsDownloaded
          (cycleStep (([] : List BSpec).map BSpec.art) (some (.xml (some idxA1 :: []) none))
            false).ledger 500
        = recordsDownloaded (([] : List BSpec).map BSpec.art) 500 + 500) :=
  ⟨⟨by decide, by decide⟩,
    (c1_records_counter [] (some idxA1) [] none false 500 (by decide) (by decide)).2⟩

/-- Counterexample to C1 as stated: a New batch whose confirm call fails
still advances the counter (the artifact was persisted, and the counter is
recomputed from the filenames), contradicting the claim that it advances
only when the confirm call succeeds. -/
theorem c1_counterexample :
    (cycleStep [] (some respA1single) false).cls = .new ∧
    recordsDownloaded ([] : Ledger) 500 = 0 ∧
    recordsDownloaded (cycleStep [] (some respA1single) false).ledger 500 = 500 := by decide

/-! ## Claim C3 -/

theorem LInv_of_specs (sps : List BSpec)
    (hsl : ∀ s ∈ sps, '/' ∉ pyStr s.idx)
    (hcf : ∀ s ∈ sps, ¬ ("confirmed".data <:+: pyStr s.idx))
    (hone : ∀ s ∈ sps, ∀ t ∈ sps, s.conf = false → t.conf = false → s = t)
    (hmax : ∀ s ∈ sps, s.conf = false → ∀ t ∈ sps, t.seq ≤ s.seq) :
    LInv (sps.map BSpec.art) := by
  constructor
  · intro a ha b hb hua hub
    obtain ⟨s, hs, rfl⟩ := List.mem_map.mp ha
    obtain ⟨t, ht, rfl⟩ := List.mem_map.mp hb
    have hsf : s.conf = false := (unconf_art_iff s (hcf s hs)).mp hua
    have htf : t.conf = false := (unconf_art_iff t (hcf t ht)).mp hub
    rw [hone s hs t ht hsf htf]
  · intro a ha hua b hb
    obtain ⟨s, hs, rfl⟩ := List.mem_map.mp ha
    obtain ⟨t, ht, rfl⟩ := List.mem_map.mp hb
    have hsf : s.conf = false := (unconf_art_iff s (hcf s hs)).mp hua
    rw [seqOf_art s (hsl s hs), seqOf_art t (hsl t ht)]
    exact hmax s hs hsf t ht

theorem spec_unconf_unique (sps : List BSpec)
    (hnd : (sps.map BSpec.seq).Nodup)
    (hsl : ∀ s ∈ sps, '/' ∉ pyStr s.idx)
    (hcf : ∀ s ∈ sps, ¬ ("confirmed".data <:+: pyStr s.idx))
    (hli : LInv (sps.map BSpec.art)) :
    ∀ s ∈ sps, ∀ t ∈ sps, s.conf = false → t.conf = false → s = t := by
  intro s hs t ht hsf htf
  have hus : unconfirmedName s.art.name := (unconf_art_iff s (hcf s hs)).mpr hsf
  have hut : unconfirmedName t.art.name := (unconf_art_iff t (hcf t ht)).mpr htf
  have he : s.art = t.art :=
    hli.1 s.art (List.mem_map_of_mem _ hs) t.art (List.mem_map_of_mem _ ht) hus hut
  exact spec_eq_of_name_eq hnd hsl hs ht (congrArg Artifact.name he)

/-- C3 amended: for a well-formed Ledger satisfying the at-most-one-unconfirmed
invariant, a complete cycle iteration preserves the invariant provided no
iteration performed while an unconfirmed artifact exists classifies its fetch
as New (the duplicate-resend assumption: the server re-sends the unconfirmed
batch and its stored first index is readable; without this assumption the
invariant fails, see the counterexample). -/
theorem c3_unconfirmed_invariant (sps : List BSpec) (fetch : Option FileContent) (ok : Bool)
    (hwf : WF sps) (hinv : LInv (sps.map BSpec.art))
    (hresend : (∃ a ∈ sps.map BSpec.art, unconfirmedName a.name) →
        (cycleStep (sps.map BSpec.art) fetch ok).cls ≠ .new)
    (hidx : fetchedIdxOk fetch) :
    LInv ((cycleStep (sps.map BSpec.art) fetch ok).ledger) := by
  have hsl : ∀ s ∈ sps, '/' ∉ pyStr s.idx := fun s hs => (hwf.1 s hs).2.2.2.2
  have hcf : ∀ s ∈ sps, ¬ ("confirmed".data <:+: pyStr s.idx) :=
    fun s hs => (hwf.1 s hs).2.2.1
  cases fetch with
  | none =>
    rw [cycleStep_none]
    exact hinv
  | some c =>
    cases c with
    | corrupt =>
      rw [cycleStep_corrupt]
      exact hinv
    | xml books tx =>
      cases books with
      | nil =>
        rw [cycleStep_xml_nil]
        exact hinv
      | cons b rest =>
        have hib : idxOk b := hidx
        by_cases hcond : (get_last_batch_info (sps.map BSpec.art)).2 ≠ none ∧
            b = (get_last_batch_info (sps.map BSpec.art)).2
        · cases ok with
          | false =>
            rw [cycleStep_xml_eq, if_pos hcond]
            exact hinv
          | true =>
            obtain ⟨m, hm, hmeq, hcase⟩ := dup_ok_ledger_spec sps b rest tx hwf hcond
            rcases hcase with hl | ⟨hmcf, hl⟩
            · rw [hl]
              exact hinv
            · rw [hl]
              have hmem2 : ∀ s ∈ sps.filter (fun sp : BSpec => sp.art.name ≠ m.art.name)
                  ++ [(⟨m.seq, m.idx, true, m.content⟩ : BSpec)],
                  (s ∈ sps ∧ s.art.name ≠ m.art.name) ∨
                    s = ⟨m.seq, m.idx, true, m.content⟩ := by
                intro s hs
                rcases List.mem_append.mp hs with hs | hs
                · have h2 := List.mem_filter.mp hs
                  exact Or.inl ⟨h2.1, by simpa using h2.2⟩
                · exact Or.inr (List.mem_singleton.mp hs)
              apply LInv_of_specs
              · intro s hs
                rcases hmem2 s hs with ⟨hs', _⟩ | hs'
                · exact hsl s hs'
                · rw [hs']
                  exact hsl m hm
              · intro s hs
                rcases hmem2 s hs with ⟨hs', _⟩ | hs'
                · exact hcf s hs'
                · rw [hs']
                  exact hcf m hm
              · intro s hs t ht hsf htf
                exfalso
                rcases hmem2 s hs with ⟨hs', hne⟩ | hs'
                · have hsm : s = m := spec_unconf_unique sps hwf.2 hsl hcf hinv
                    s hs' m hm hsf hmcf
                  exact hne (by rw [hsm])
                · rw [hs'] at hsf
                  exact absurd hsf (by simp)
              · intro s hs hsf t ht
                exfalso
                rcases hmem2 s hs with ⟨hs', hne⟩ | hs'
                · have hsm : s = m := spec_unconf_unique sps hwf.2 hsl hcf hinv
                    s hs' m hm hsf hmcf
                  exact hne (by rw [hsm])
                · rw [hs'] at hsf
                  exact absurd hsf (by simp)
        · have hcls := cycleStep_new_cls (sps.map BSpec.art) b rest tx ok hcond
          have hallconf : ∀ s ∈ sps, s.conf = true := by
            intro s hs
            cases hcs : s.conf
            · exfalso
              refine hresend ⟨s.art, List.mem_map_of_mem _ hs, ?_⟩ hcls
              exact (unconf_art_iff s (hcf s hs)).mpr hcs
            · rfl
          rw [new_step_ledger_spec sps b rest tx ok hwf hib hcond]
          have hmem2 : ∀ s ∈ sps ++ [(⟨maxSeq sps + 1, b, ok, .xml (b :: rest) tx⟩ : BSpec)],
              s ∈ sps ∨ s = ⟨maxSeq sps + 1, b, ok, .xml (b :: rest) tx⟩ := by
            intro s hs
            rcases List.mem_append.mp hs with hs | hs
            · exact Or.inl hs
            · exact Or.inr (List.mem_singleton.mp hs)
          apply LInv_of_specs
          · intro s hs
            rcases hmem2 s hs with hs' | hs'
            · exact hsl s hs'
            · rw [hs']
              exact hib.2.2
          · intro s hs
            rcases hmem2 s hs with hs' | hs'
            · exact hcf s hs'
            · rw [hs']
              exact hib.1
          · intro s hs t ht hsf htf
            have hs2 : s = ⟨maxSeq sps + 1, b, ok, .xml (b :: rest) tx⟩ := by
              rcases hmem2 s hs with hs' | hs'
              · exact absurd hsf (by rw [hallconf s hs']; decide)
              · exact hs'
            have ht2 : t = ⟨maxSeq sps + 1, b, ok, .xml (b :: rest) tx⟩ := by
              rcases hmem2 t ht with ht' | ht'
              · exact absurd htf (by rw [hallconf t ht']; decide)
              · exact ht'
            rw [hs2, ht2]
          · intro s hs hsf t ht
            have hs2 : s = ⟨maxSeq sps + 1, b, ok, .xml (b :: rest) tx⟩ := by
              rcases hmem2 s hs with hs' | hs'
              · exact absurd hsf (by rw [hallconf s hs']; decide)
              · exact hs'
            rcases hmem2 t ht with ht' | ht'
            · have := maxSeq_ge sps t ht'
              rw [hs2]
              show t.seq ≤ maxSeq sps + 1
              omega
            · rw [hs2, ht']

/-- Witness for C3 (amended): a New iteration from the empty Ledger with a
failing confirm leaves exactly one unconfirmed artifact, the most recent. -/
theorem c3_witness :
    (WF [] ∧ LInv (([] : List BSpec).map BSpec.art) ∧
      ((∃ a ∈ ([] : List BSpec).map BSpec.art, unconfirmedName a.name) →
        (cycleStep (([] : List BSpec).map BSpec.art) (some respA1single) false).cls ≠ .new) ∧
      fetchedIdxOk (some respA1single)) ∧
    LInv ((cycleStep (([] : List BSpec).map BSpec.art) (some respA1single) false).ledger) :=
  ⟨⟨by decide, by decide, by decide, by decide⟩,
    c3_unconfirmed_invariant [] (some respA1single) false (by decide) (by decide)
      (by decide) (by decide)⟩

/-- Counterexample to C3 as stated: two consecutive New iterations with
failing confirms and distinct first indexes — possible fetch responses under
the claim's "whatever fetch responses occurred" — leave a reachable Ledger
with two unconfirmed artifacts. -/
theorem c3_counterexample :
    (unconfirmedFiles
        (cycleStep (cycleStep [] (some respA1single) false).ledger
          (some respA2single) false).ledger).length = 2 ∧
    ¬ LInv (cycleStep (cycleStep [] (some respA1single) false).ledger
        (some respA2single) false).ledger := by decide

end WbdConnector
